import Mathlib

/-!
A shallow embedding of the repository engine of faptly.

The development follows `manager/manager.go` and `storage/minio.go`.

* Go strings are lists of characters (`Str`), byte buffers are lists of numbers (`Bytes`).
* A Go run-time panic is the fault `Err.panic`; an `error` value is any other `Err`.
* The object store is a list of `(key, content)` pairs together with the faults the
  transport may raise; `ListObjects` with a prefix is plain string-prefix filtering, as in S3.
* Libraries outside the repository (the control codec, the archive readers, the digests,
  the clock, the local file system) are the fields of `Libs`, and so is the clear-signing
  of `pgp.SignData` (pgp/pgp.go), whose work is done by an OpenPGP library.
* Goroutine scheduling is not modelled: the workers of `UploadPkgs` run one after another,
  each to completion, which is what the engine-wide mutex gives for the index update.
-/

namespace Faptly

/-! ## Strings and the `path` / `strings` helpers -/

/-- Go string. -/
abbrev Str := List Char

/-- Go byte slice. -/
abbrev Bytes := List Nat

def OS : Str := "linux".toList
def ABI : Str := "gnu".toList
def PoolDir : Str := "pool".toList
def DistsDir : Str := "dists".toList
def ReleaseFile : Str := "InRelease".toList
def PackagesFile : Str := "Packages".toList

/-- The slash-separated elements of a path (empty elements included). -/
def splitSlash : Str → List Str
  | [] => [[]]
  | c :: cs =>
    if c = '/' then [] :: splitSlash cs
    else
      match splitSlash cs with
      | [] => [[c]]
      | x :: xs => (c :: x) :: xs

/-- One path element processed by `path.Clean`; `out` is the stack of elements written so
far, innermost first.  An empty or `.` element is dropped, `..` removes the element before
it when there is one that is not itself `..`, is dropped at the root, and is kept otherwise. -/
def cleanStep (rooted : Bool) (out : List Str) (e : Str) : List Str :=
  if e = [] ∨ e = ['.'] then out
  else if e = ['.', '.'] then
    match out with
    | [] => if rooted then [] else [e]
    | top :: rest => if top = ['.', '.'] then e :: out else rest
  else e :: out

/-- Elements joined with single slashes. -/
def joinSlash : List Str → Str
  | [] => []
  | [x] => x
  | x :: y :: rest => x ++ '/' :: joinSlash (y :: rest)

/-- Go `path.Clean`, by its documented rules applied element by element: multiple slashes
become one, `.` elements go, an inner `..` goes together with the element before it, `..`
at the start of a rooted path goes, and an empty result is `.`. -/
def Clean (p : Str) : Str :=
  if p = [] then ['.']
  else
    let rooted : Bool := p.head? = some '/'
    let out := (splitSlash p).foldl (cleanStep rooted) []
    let s := (if rooted then ['/'] else []) ++ joinSlash out.reverse
    if s = [] then ['.'] else s

/-- One round of the loop of `path.Join` over its arguments. -/
def joinBuf (buf e : Str) : Str :=
  if buf ≠ [] ∨ e ≠ [] then (if buf ≠ [] then buf ++ ['/'] else buf) ++ e else buf

/-- Go `path.Join`. -/
def Join (elem : List Str) : Str :=
  if (elem.map List.length).sum = 0 then [] else Clean (elem.foldl joinBuf [])

/-- Go `path.Base`. -/
def Base (p : Str) : Str :=
  if p = [] then ['.']
  else
    let stripped := (p.reverse.dropWhile (fun c => c == '/')).reverse
    let last := (stripped.reverse.takeWhile (fun c => c != '/')).reverse
    if last = [] then ['/'] else last

/-- The backwards scan of `path.Ext`: `acc` is what was passed over. -/
def extAux : Str → Str → Str
  | [], _ => []
  | c :: rest, acc =>
    if c = '/' then [] else if c = '.' then '.' :: acc else extAux rest (c :: acc)

/-- Go `path.Ext`: the suffix starting at the last dot of the last element. -/
def Ext (p : Str) : Str := extAux p.reverse []

/-- Go `strings.Trim(s, "/")`. -/
def trimSlashes (s : Str) : Str :=
  ((s.dropWhile (fun c => c == '/')).reverse.dropWhile (fun c => c == '/')).reverse

/-- Go `strings.HasPrefix`. -/
def HasPrefix (s pre : Str) : Bool := pre.isPrefixOf s

/-- Go `strings.HasSuffix`. -/
def HasSuffix (s suf : Str) : Bool := suf.isSuffixOf s

/-- Go `strings.TrimPrefix`. -/
def TrimPrefix (s pre : Str) : Str := if HasPrefix s pre then s.drop pre.length else s

/-- Go `strings.Split(s, "")[0]`: the first character, as a string; indexing the empty
result of splitting the empty string is a run-time panic (`none`). -/
def firstChar : Str → Option Str
  | [] => none
  | c :: _ => some [c]

/-! ## Data model -/

/-- The `dependency.Arch` triple. -/
structure Arch where
  ABI : Str
  OS : Str
  CPU : Str
deriving DecidableEq, Repr

/-- The fields of `control.BinaryIndex` the engine reads or writes; `Values` is the
verbatim stanza (`Paragraph.Values`). -/
structure BinaryIndex where
  Values : List (Str × Str)
  Package : Str
  Architecture : Arch
  Size : Nat
  MD5sum : Str
  SHA1 : Str
  SHA256 : Str
  Filename : Str
deriving DecidableEq, Repr

/-- A row of a hash manifest (`control.FileHash`). -/
structure FileHash where
  Algorithm : Str
  Hash : Str
  Size : Nat
  ByHash : Str
  Filename : Str
deriving DecidableEq, Repr

/-- The release descriptor (`manager/release.go`); `Date` is the instant as a number. -/
structure Release where
  Origin : Str
  Suite : Str
  Label : Str
  Codename : Str
  Description : Str
  Components : List Str
  Architectures : List Arch
  Date : Nat
  MD5 : List FileHash
  SHA1 : List FileHash
  SHA256 : List FileHash
deriving DecidableEq, Repr

/-- What a call can end with besides a value: a returned `error` of one of these kinds, or
a run-time panic. -/
inductive Err where
  | repoNotFound
  | repoExists
  | unsupportedComponent
  | unsupportedArchitecture
  | transport
  | localRead
  | codec
  | notAnArchive
  | unsupportedCompression
  | controlMissing
  | corruptStream
  | sign
  | panic
deriving DecidableEq, Repr

/-! ## The index update of `UploadPkgs` (manager.go 314-334) -/

/-- The loop `for i, index := range m.index[cpu] { if ... { m.index[cpu] = append(m.index[cpu][:i],
m.index[cpu][i+1:]...) } }`, from iteration `i` on, with `k` iterations left.

The range expression is evaluated once, so the loop visits the indices of the slice it
started with and reads element `i` from the backing array `arr` at the time of the visit.
`len` is the current length of `m.index[cpu]`, which shares that array: the `append` moves the
elements `i+1 .. len-1` one place down in `arr`, leaves the rest of `arr` as it is, and
shortens `m.index[cpu]` by one.  Slicing `m.index[cpu][i+1:]` with `i+1 > len` is a run-time
panic (`none`). -/
def removeLoop (b : Str) : Nat → Nat → List BinaryIndex → Nat → Option (List BinaryIndex × Nat)
  | 0, _, arr, len => some (arr, len)
  | k + 1, i, arr, len =>
    match arr[i]? with
    | none => none
    | some index =>
      if b = Base index.Filename then
        if i + 1 ≤ len then
          removeLoop b k (i + 1)
            (arr.take i ++ (arr.drop (i + 1)).take (len - (i + 1)) ++ arr.drop (len - 1)) (len - 1)
        else none
      else removeLoop b k (i + 1) arr len

/-- The update of one per-cpu list: the removal loop, then `append(m.index[cpu], *idx)`.
`b` is `path.Base(pkg)`. -/
def updateList (b : Str) (e : BinaryIndex) (L : List BinaryIndex) : Option (List BinaryIndex) :=
  (removeLoop b L.length 0 L L.length).map (fun r => r.1.take r.2 ++ [e])

/-- The map `m.index` from cpu to list. -/
abbrev IndexMap := List (Str × List BinaryIndex)

/-- Reading `m.index[cpu]`: a missing key gives the nil slice. -/
def IndexMap.get (m : IndexMap) (cpu : Str) : List BinaryIndex :=
  (m.lookup cpu).getD []

/-- Assigning `m.index[cpu] = v`. -/
def IndexMap.set : IndexMap → Str → List BinaryIndex → IndexMap
  | [], cpu, v => [(cpu, v)]
  | (k, w) :: rest, cpu, v =>
    if k = cpu then (k, v) :: rest else (k, w) :: IndexMap.set rest cpu v

/-- The update of `m.index[cpu]`. -/
def updateCpu (b : Str) (e : BinaryIndex) (m : IndexMap) (cpu : Str) : Option IndexMap :=
  (updateList b e (m.get cpu)).map (fun L => m.set cpu L)

/-- The critical section of a worker: every declared cpu for an `all` entry, the entry's own
cpu otherwise. -/
def indexUpdate (archs : List Arch) (b : Str) (e : BinaryIndex) (m : IndexMap) : Option IndexMap :=
  if e.Architecture.CPU = "all".toList then
    archs.foldlM (fun acc a => updateCpu b e acc a.CPU) m
  else updateCpu b e m e.Architecture.CPU

/-- The pool path computed by a worker (manager.go 308-312); `none` is the panic of
indexing `strings.Split(name, "")` when the name is empty. -/
def poolFilename (suite component pkg : Str) (idx : BinaryIndex) : Option Str :=
  match idx.Values.lookup "Source".toList with
  | some source =>
    (firstChar source).map (fun p => Join [PoolDir, suite, component, p, source, Base pkg])
  | none =>
    (firstChar idx.Package).map
      (fun p => Join [PoolDir, suite, component, p, idx.Package, Base pkg])

/-! ## The object store (storage/minio.go) -/

/-- The objects of the bucket: key and content. -/
abbrev Store := List (Str × Bytes)

/-- The requests the transport fails, per key. -/
structure Faults where
  stat : Str → Bool
  read : Str → Bool
  write : Str → Bool
  remove : Str → Bool
  list : Str → Bool

/-- A transport that never fails. -/
def noFaults : Faults :=
  { stat := fun _ => false, read := fun _ => false, write := fun _ => false,
    remove := fun _ => false, list := fun _ => false }

/-- The outcome of an operation that may change the store: the returned error (`none` for
nil) and the store it leaves. -/
abbrev Res := Option Err × Store

/-- Replacing or adding an object (`PutObject`). -/
def Store.put : Store → Str → Bytes → Store
  | [], p, d => [(p, d)]
  | (k, w) :: rest, p, d => if k = p then (k, d) :: rest else (k, w) :: Store.put rest p d

/-- Dropping an object (`RemoveObject`). -/
def Store.del (s : Store) (p : Str) : Store := s.filter (fun o => !decide (o.1 = p))

/-- The keys `ListObjects` yields for a prefix, recursively: every key that starts with it,
here in the order of the store list. -/
def listObjects (s : Store) (pre : Str) : List Str :=
  (s.filter (fun o => HasPrefix o.1 pre)).map Prod.fst

/-- `MinioStorage.Exists`: any error of `StatObject` counts as absent. -/
def Exists (f : Faults) (s : Store) (p : Str) : Bool :=
  !f.stat p && (s.lookup p).isSome

/-- `MinioStorage.ReadFile`. -/
def ReadFile (f : Faults) (s : Store) (p : Str) : Except Err Bytes :=
  if f.read p then .error .transport
  else
    match s.lookup p with
    | none => .error .transport
    | some d => .ok d

/-- `MinioStorage.WriteFile`. -/
def WriteFile (f : Faults) (s : Store) (p : Str) (d : Bytes) : Res :=
  if f.write p then (some .transport, s) else (none, s.put p d)

/-- The loop of `MinioStorage.RemoveAll` over the listed keys: a listing error is returned,
a failed `RemoveObject` ends the call with `return nil`. -/
def removeKeys (f : Faults) : List Str → Store → Res
  | [], s => (none, s)
  | k :: rest, s =>
    if f.list k then (some .transport, s)
    else if f.remove k then (none, s)
    else removeKeys f rest (s.del k)

/-- `MinioStorage.RemoveAll`. -/
def RemoveAll (f : Faults) (s : Store) (p : Str) : Res :=
  removeKeys f (listObjects s p) s

/-! ## Repository operations (manager/manager.go) -/

/-- `Manager.repoExists`. -/
def repoExists (f : Faults) (s : Store) (suite : Str) : Bool :=
  Exists f s (Join [DistsDir, suite, ReleaseFile])

/-- The loop of `DeleteRepo` over the two directories. -/
def deleteDirs (f : Faults) (suite : Str) : List Str → Store → Res
  | [], s => (none, s)
  | dir :: rest, s =>
    match RemoveAll f s (Join [dir, suite]) with
    | (some e, s1) => (some e, s1)
    | (none, s1) => deleteDirs f suite rest s1

/-- `Manager.DeleteRepo`. -/
def DeleteRepo (f : Faults) (s : Store) (suite : Str) : Res :=
  if repoExists f s suite then deleteDirs f suite [PoolDir, DistsDir] s
  else (some .repoNotFound, s)

/-- What successive calls of `Next` on the tar reader of a member give: the end of the
archive, a corrupt stream, or a header with the outcome of copying the body (`none` when
the copy fails). -/
inductive TarStream where
  | eof
  | err
  | entry (name : Str) (body : Option Bytes) (rest : TarStream)

/-- What successive calls of `Next` on the `ar` reader give; a member carries whether the
constructor of its decompressor fails and the tar stream read through that decompressor. -/
inductive ArStream where
  | eof
  | err
  | member (name : Str) (newReaderFails : Bool) (tar : TarStream) (rest : ArStream)

/-- Libraries and surroundings outside the repository. -/
structure Libs where
  /-- lower-case hex digests (`crypto/md5`, `crypto/sha1`, `crypto/sha256` with `%x`) -/
  md5 : Bytes → Str
  sha1 : Bytes → Str
  sha256 : Bytes → Str
  /-- `control.Unmarshal` into a `Release` -/
  unmarshalRelease : Bytes → Option Release
  /-- `control.Marshal` of a `Release` -/
  marshalRelease : Release → Option Bytes
  /-- `control.ParseBinaryIndex` -/
  parseBinaryIndex : Bytes → Option (List BinaryIndex)
  /-- `control.Marshal` of a list of entries -/
  marshalBinaryIndexes : List BinaryIndex → Option Bytes
  /-- `control.Unmarshal` into a `BinaryIndex` -/
  unmarshalBinaryIndex : Bytes → Option BinaryIndex
  /-- `pgp.SignData` with the configured key and passphrase -/
  signData : Bytes → Option Bytes
  /-- `time.Now().UTC()` -/
  now : Nat
  /-- `os.ReadFile` -/
  readLocal : Str → Option Bytes
  /-- the member stream the `ar` reader finds in a buffer -/
  arOpen : Bytes → ArStream

/-- The inner loop of `readControlFile` over the tar members: the body of the first member
whose name ends in `control`, `none` when the stream ends first; a failing `Next` panics. -/
def findControl : TarStream → Except Err (Option Bytes)
  | .eof => .ok none
  | .err => .error .panic
  | .entry name body rest =>
    if HasSuffix name "control".toList then
      match body with
      | some b => .ok (some b)
      | none => .error .corruptStream
    else findControl rest

/-- `readControlFile` (manager.go 486-546). -/
def readControlFile : ArStream → Except Err Bytes
  | .eof => .error .controlMissing
  | .err => .error .notAnArchive
  | .member name newReaderFails tar rest =>
    if HasPrefix name "control.tar".toList then
      let ext := Ext (trimSlashes name)
      if ext = ".xz".toList ∨ ext = ".gz".toList ∨ ext = ".zst".toList ∨ ext = ".bz2".toList then
        if newReaderFails ∧ ext ≠ ".bz2".toList then .error .panic
        else
          match findControl tar with
          | .error e => .error e
          | .ok (some b) => .ok b
          | .ok none => readControlFile rest
      else .error .unsupportedCompression
    else readControlFile rest

/-- `Manager.getRelease`. -/
def getRelease (x : Libs) (f : Faults) (s : Store) (suite : Str) : Except Err Release :=
  match ReadFile f s (Join [DistsDir, suite, ReleaseFile]) with
  | .error e => .error e
  | .ok data =>
    match x.unmarshalRelease data with
    | none => .error .codec
    | some r => .ok r

/-- `Manager.getBinaryIndexes`. -/
def getBinaryIndexes (x : Libs) (f : Faults) (s : Store) (p : Str) : Except Err (List BinaryIndex) :=
  match ReadFile f s p with
  | .error e => .error e
  | .ok b =>
    match x.parseBinaryIndex b with
    | none => .error .codec
    | some l => .ok l

/-- The three manifests built so far by the walk of `rebuildRelease`. -/
structure Manifests where
  MD5 : List FileHash
  SHA1 : List FileHash
  SHA256 : List FileHash
deriving DecidableEq, Repr

/-- The row of one algorithm for a blob found by the walk. -/
def fileHash (alg : Str) (hex : Str) (file : Bytes) (p : Str) : FileHash :=
  { Algorithm := alg, Hash := hex, Size := file.length, ByHash := hex, Filename := p }

/-- The callback of the walk in `rebuildRelease` (manager.go 363-419), applied to the listed
keys in turn. -/
def walkPackages (x : Libs) (f : Faults) (s : Store) (suite : Str) :
    List Str → Manifests → Except Err Manifests
  | [], m => .ok m
  | found :: rest, m =>
    if f.list found then .error .transport
    else if !HasSuffix found PackagesFile then walkPackages x f s suite rest m
    else
      match ReadFile f s found with
      | .error e => .error e
      | .ok file =>
        let p := TrimPrefix found (Join [DistsDir, suite] ++ ['/'])
        walkPackages x f s suite rest
          { MD5 := m.MD5 ++ [fileHash "md5".toList (x.md5 file) file p],
            SHA1 := m.SHA1 ++ [fileHash "sha1".toList (x.sha1 file) file p],
            SHA256 := m.SHA256 ++ [fileHash "sha256".toList (x.sha256 file) file p] }

/-- The manifests `rebuildRelease` computes for a suite: `Walk` over the prefix
`path.Join(DistsDir, suite)`. -/
def buildManifests (x : Libs) (f : Faults) (s : Store) (suite : Str) : Except Err Manifests :=
  walkPackages x f s suite (listObjects s (Join [DistsDir, suite])) ⟨[], [], []⟩

/-- `Manager.writeRelease`. -/
def writeRelease (x : Libs) (f : Faults) (s : Store) (release : Release) : Res :=
  match x.marshalRelease { release with Date := x.now } with
  | none => (some .codec, s)
  | some buf =>
    match x.signData buf with
    | none => (some .sign, s)
    | some data => WriteFile f s (Join [DistsDir, release.Suite, ReleaseFile]) data

/-- `Manager.rebuildRelease`. -/
def rebuildRelease (x : Libs) (f : Faults) (s : Store) (release : Release) : Res :=
  match buildManifests x f s release.Suite with
  | .error e => (some e, s)
  | .ok m => writeRelease x f s { release with MD5 := m.MD5, SHA1 := m.SHA1, SHA256 := m.SHA256 }

/-! ## `UploadPkgs` (manager.go 245-352) -/

/-- Modelled from the spec: the hash fan-out of §4.D (`hashio.NewHasherReaders`, a library
outside the repository), which tees the bytes read from the reader it returns into an md5,
a sha1 and a sha256 hasher.  `seen` is what has been read through that reader; the result
is the three lower-case hex digests the hashers report. -/
def hashFanOut (x : Libs) (seen : Bytes) : Str × Str × Str :=
  (x.md5 seen, x.sha1 seen, x.sha256 seen)

/-- Lines 275-292 of a worker: read the file, extract and parse the control stanza, check
the architecture. -/
def parseEntry (x : Libs) (r : Release) (pkg : Str) : Except Err (Bytes × BinaryIndex) :=
  match x.readLocal pkg with
  | none => .error .localRead
  | some data =>
    match readControlFile (x.arOpen data) with
    | .error e => .error e
    | .ok rawIndex =>
      match x.unmarshalBinaryIndex rawIndex with
      | none => .error .codec
      | some idx =>
        if idx.Architecture.CPU ≠ "all".toList ∧ idx.Architecture ∉ r.Architectures then
          .error .unsupportedArchitecture
        else .ok (data, idx)

/-- Lines 294-312 of a worker: `Size` from `reader.Size()`, the digests from the hashers
returned by `NewHasherReaders` (the reader returned with them is dropped, so nothing is read
through it), and the pool path.  `none` is the panic of `poolFilename`. -/
def buildEntry (x : Libs) (suite component pkg : Str) (data : Bytes) (idx : BinaryIndex) :
    Option BinaryIndex :=
  let sums := hashFanOut x []
  let idx1 : BinaryIndex :=
    { idx with Size := data.length, MD5sum := sums.1, SHA1 := sums.2.1, SHA256 := sums.2.2 }
  (poolFilename suite component pkg idx1).map (fun fn => { idx1 with Filename := fn })

/-- One worker of `UploadPkgs`: the error it returns, the index and the store it leaves. -/
def worker (x : Libs) (f : Faults) (r : Release) (suite component pkg : Str)
    (m : IndexMap) (s : Store) : Option Err × IndexMap × Store :=
  match parseEntry x r pkg with
  | .error e => (some e, m, s)
  | .ok (data, idx0) =>
    match buildEntry x suite component pkg data idx0 with
    | none => (some .panic, m, s)
    | some idx =>
      match indexUpdate r.Architectures (Base pkg) idx m with
      | none => (some .panic, m, s)
      | some m1 =>
        match WriteFile f s (Join [idx.Filename]) data with
        | (e, s1) => (e, m1, s1)

/-- The workers of a batch, one after another; `first` is the first error returned so far
(what `group.Wait` reports).  A panic ends the process at once. -/
def runWorkers (x : Libs) (f : Faults) (r : Release) (suite component : Str) :
    List Str → Option Err → IndexMap → Store → Option Err × IndexMap × Store
  | [], first, m, s => (first, m, s)
  | pkg :: rest, first, m, s =>
    match worker x f r suite component pkg m s with
    | (some .panic, m1, s1) => (some .panic, m1, s1)
    | (e, m1, s1) => runWorkers x f r suite component rest (first <|> e) m1 s1

/-- The loop of `UploadPkgs` loading the per-cpu lists (manager.go 252-258). -/
def loadIndexes (x : Libs) (f : Faults) (s : Store) (suite component : Str) :
    List Arch → IndexMap → Except Err IndexMap
  | [], m => .ok m
  | a :: rest, m =>
    match getBinaryIndexes x f s
        (Join [DistsDir, suite, component, "binary-".toList ++ a.CPU, PackagesFile]) with
    | .error e => .error e
    | .ok i => loadIndexes x f s suite component rest (m.set a.CPU i)

/-- The loop of `writeBinaryIndexes` over the map. -/
def writeIndexes (x : Libs) (f : Faults) (r : Release) (component : Str) :
    IndexMap → Store → Res
  | [], s => (none, s)
  | (k, index) :: rest, s =>
    match x.marshalBinaryIndexes index with
    | none => (some .codec, s)
    | some buf =>
      match WriteFile f s
          (Join [DistsDir, r.Suite, component, "binary-".toList ++ k, PackagesFile]) buf with
      | (some e, s1) => (some e, s1)
      | (none, s1) => writeIndexes x f r component rest s1

/-- `Manager.writeBinaryIndexes`. -/
def writeBinaryIndexes (x : Libs) (f : Faults) (s : Store) (r : Release) (component : Str)
    (m : IndexMap) : Res :=
  match writeIndexes x f r component m s with
  | (some e, s1) => (some e, s1)
  | (none, s1) => rebuildRelease x f s1 r

/-- `Manager.UploadPkgs`, on a manager fresh from `New` (empty `index`). -/
def UploadPkgs (x : Libs) (f : Faults) (s : Store) (suite component : Str) (pkgs : List Str) :
    Res :=
  if repoExists f s suite then
    match getRelease x f s suite with
    | .error e => (some e, s)
    | .ok r =>
      match loadIndexes x f s suite component r.Architectures [] with
      | .error e => (some e, s)
      | .ok m =>
        match runWorkers x f r suite component pkgs none m s with
        | (some e, _, s1) => (some e, s1)
        | (none, m1, s1) => writeBinaryIndexes x f s1 r component m1
  else (some .repoNotFound, s)

/-- The loop of `CreateRepo` writing an empty `Packages` per component and architecture. -/
def createPackages (f : Faults) (suite : Str) : List (Str × Str) → Store → Res
  | [], s => (none, s)
  | (component, arch) :: rest, s =>
    match WriteFile f s
        (Join [DistsDir, suite, component, "binary-".toList ++ arch, PackagesFile]) [] with
    | (some e, s1) => (some e, s1)
    | (none, s1) => createPackages f suite rest s1

/-- `Manager.CreateRepo`. -/
def CreateRepo (x : Libs) (f : Faults) (s : Store) (origin suite label codename description : Str)
    (components architectures : List Str) : Res :=
  if !repoExists f s suite then
    match createPackages f suite
        (components.flatMap (fun c => architectures.map (fun a => (c, a)))) s with
    | (some e, s1) => (some e, s1)
    | (none, s1) =>
      rebuildRelease x f s1
        { Origin := origin, Label := label, Suite := suite, Codename := codename,
          Components := components, Description := description,
          Architectures := architectures.map (fun a => { OS := OS, ABI := ABI, CPU := a }),
          Date := 0, MD5 := [], SHA1 := [], SHA256 := [] }
  else (some .repoExists, s)

/-- The class `\w` of Go regular expressions: ASCII letters, digits and the underscore. -/
def isWordChar (c : Char) : Bool := c.isAlphanum || c == '_'

/-- A match of `dists/(\w+)/InRelease$` that starts at the head of `t`: the text `dists/`, a
run of word characters that is not empty, and `/InRelease` up to the end. -/
def matchAt (t : Str) : Bool :=
  HasPrefix t "dists/".toList &&
    (!((t.drop 6).takeWhile isWordChar).isEmpty &&
      decide ((t.drop 6).dropWhile isWordChar = "/InRelease".toList))

/-- The test `regexp.MatchString("dists/(\w+)/InRelease$", path)` of `ListRepos`: a match
starting anywhere in the path. -/
def matchRelease (path : Str) : Bool := path.tails.any matchAt

/-- A line of the list `ListRepos` prints: suite, components, the cpu of each architecture
and the description of a descriptor. -/
structure RepoLine where
  Suite : Str
  Components : List Str
  Architectures : List Str
  Description : Str
deriving DecidableEq, Repr

/-- The line `ListRepos` writes for a descriptor. -/
def repoLine (r : Release) : RepoLine :=
  { Suite := r.Suite, Components := r.Components,
    Architectures := r.Architectures.map (fun a => a.CPU), Description := r.Description }

/-- The callback of the walk in `ListRepos` (manager.go 70-101), applied to the listed keys
in turn; `acc` is what the string builder holds. -/
def listWalk (x : Libs) (f : Faults) (s : Store) :
    List Str → List RepoLine → Except Err (List RepoLine)
  | [], acc => .ok acc
  | path :: rest, acc =>
    if f.list path then .error .transport
    else if matchRelease path then
      match ReadFile f s path with
      | .error e => .error e
      | .ok file =>
        match x.unmarshalRelease file with
        | none => .error .codec
        | some release => listWalk x f s rest (acc ++ [repoLine release])
    else listWalk x f s rest acc

/-- `Manager.ListRepos`: the lines printed, or the error returned. -/
def ListRepos (x : Libs) (f : Faults) (s : Store) : Except Err (List RepoLine) :=
  listWalk x f s (listObjects s (Join [DistsDir])) []

def amd64 : Arch := { ABI := ABI, OS := OS, CPU := "amd64".toList }
def arm64 : Arch := { ABI := ABI, OS := OS, CPU := "arm64".toList }
def mips64 : Arch := { ABI := ABI, OS := OS, CPU := "mips64".toList }
/-- A stanza as `control.Unmarshal` gives it for a control file: no size, digests or file
name yet. -/
def stanza (values : List (String × String)) (pkg : String) (arch : Arch) : BinaryIndex :=
  { Values := values.map (fun kv => (kv.1.toList, kv.2.toList)), Package := pkg.toList,
    Architecture := arch, Size := 0, MD5sum := [], SHA1 := [], SHA256 := [], Filename := [] }

/-- An entry as it stands in a `Packages` file. -/
def listed (pkg : String) (arch : Arch) (file : String) : BinaryIndex :=
  { stanza [("Package", pkg)] pkg arch with Filename := file.toList }

/-- A stand-in for a digest in examples: one letter per byte after a tag letter. -/
def toyDigest (tag : Nat) (d : Bytes) : Str :=
  (tag :: d).map (fun n => Char.ofNat (97 + n % 26))

def helloDeb : Bytes := [33, 60, 97, 114, 99, 104, 62, 10, 1]
def helloControl : Bytes := [1]
def exoticDeb : Bytes := [33, 60, 97, 114, 99, 104, 62, 10, 2]
def exoticControl : Bytes := [2]
def namelessDeb : Bytes := [33, 60, 97, 114, 99, 104, 62, 10, 3]
def namelessControl : Bytes := [3]

def helloStanza : BinaryIndex :=
  stanza [("Package", "hello"), ("Version", "1.0"), ("Architecture", "amd64"),
    ("Source", "hello")] "hello" amd64

def exoticStanza : BinaryIndex :=
  stanza [("Package", "exotic"), ("Version", "1.0"), ("Architecture", "mips64")] "exotic" mips64

/-- A control stanza without a `Package` and without a `Source` field. -/
def namelessStanza : BinaryIndex :=
  stanza [("Version", "1.0"), ("Architecture", "amd64")] "" amd64

/-- The descriptor of a suite `stable` with component `main` and architecture `amd64`. -/
def stableRelease : Release :=
  { Origin := "Acme".toList, Suite := "stable".toList, Label := "Acme".toList,
    Codename := "bookworm".toList, Description := "desc".toList,
    Components := ["main".toList], Architectures := [amd64], Date := 0,
    MD5 := [], SHA1 := [], SHA256 := [] }

/-- The members of a `.deb` whose control stanza has the given bytes. -/
def debMembers (control : Bytes) : ArStream :=
  .member "debian-binary".toList false .eof
    (.member "control.tar.gz".toList false
      (.entry "./md5sums".toList (some []) (.entry "./control".toList (some control) .eof))
      (.member "data.tar.gz".toList false .eof .eof))

/-- Stand-ins for the libraries in examples: three local files, a codec that reads every
descriptor as `stableRelease` and every `Packages` blob as empty. -/
def demoLibs : Libs :=
  { md5 := toyDigest 1, sha1 := toyDigest 2, sha256 := toyDigest 3,
    unmarshalRelease := fun _ => some stableRelease,
    marshalRelease := fun r => some (r.MD5.map (fun h => h.Size)),
    parseBinaryIndex := fun _ => some [],
    marshalBinaryIndexes := fun l => some (l.map (fun y => y.Size)),
    unmarshalBinaryIndex := fun raw =>
      if raw = helloControl then some helloStanza
      else if raw = exoticControl then some exoticStanza
      else if raw = namelessControl then some namelessStanza
      else none,
    signData := fun b => some (0 :: b),
    now := 1,
    readLocal := fun p =>
      if p = "build/hello_1.0_amd64.deb".toList then some helloDeb
      else if p = "build/exotic_1.0_mips64.deb".toList then some exoticDeb
      else if p = "build/nameless.deb".toList then some namelessDeb
      else none,
    arOpen := fun d =>
      if d = helloDeb then debMembers helloControl
      else if d = exoticDeb then debMembers exoticControl
      else if d = namelessDeb then debMembers namelessControl
      else .err }

/-- The store after `CreateRepo` of `stable` (component `main`, architecture `amd64`). -/
def stableStore : Store :=
  [("dists/stable/main/binary-amd64/Packages".toList, []),
   ("dists/stable/InRelease".toList, [0, 0])]

/-- The store of `stable` after the upload of `hello_1.0_amd64.deb`. -/
def populatedStore : Store :=
  [("dists/stable/InRelease".toList, [0, 1]),
   ("dists/stable/main/binary-amd64/Packages".toList, [9]),
   ("pool/stable/main/h/hello/hello_1.0_amd64.deb".toList, helloDeb)]

/-- A store with the suites `stable` and `stable2`. -/
def twoSuites : Store :=
  [("dists/stable/InRelease".toList, [0, 1]),
   ("dists/stable/main/binary-amd64/Packages".toList, [9]),
   ("dists/stable2/InRelease".toList, [0, 1]),
   ("dists/stable2/main/binary-amd64/Packages".toList, [7, 7])]

/-- A transport that refuses to remove one pool object. -/
def stuckPool : Faults :=
  { noFaults with
    remove := fun k => decide (k = "pool/stable/main/h/hello/hello_1.0_amd64.deb".toList) }

/-- The stores of `stable` and `stable2`, each with a pool object. -/
def twoSuitesPooled : Store :=
  twoSuites ++
    [("pool/stable/main/h/hello/hello_1.0_amd64.deb".toList, helloDeb),
     ("pool/stable2/main/e/exotic/exotic_1.0_mips64.deb".toList, exoticDeb)]

/-- The store after `CreateRepo` of `stable-updates` (component `main`, architecture
`amd64`). -/
def dashedStore : Store :=
  [("dists/stable-updates/main/binary-amd64/Packages".toList, []),
   ("dists/stable-updates/InRelease".toList, [0, 0])]

/-- A `.deb` whose `control.tar.gz` member does not start with a gzip header, so that
`gzip.NewReader` fails. -/
def badGzipDeb : ArStream :=
  .member "debian-binary".toList false .eof
    (.member "control.tar.gz".toList true .err
      (.member "data.tar.gz".toList false .eof .eof))

/-- A `.deb` whose `control.tar.xz` member decompresses to a tar stream that breaks off
after its first member. -/
def cutTarDeb : ArStream :=
  .member "debian-binary".toList false .eof
    (.member "control.tar.xz".toList false (.entry "./md5sums".toList (some []) .err)
      (.member "data.tar.xz".toList false .eof .eof))

/-- An index with two architectures: `hello` and `zsh` built for `amd64`, `zsh` for `arm64`. -/
def sampleIndex : IndexMap :=
  [("amd64".toList,
      [listed "hello" amd64 "pool/stable/main/h/hello/hello_1.0_amd64.deb",
       listed "zsh" amd64 "pool/stable/main/z/zsh/zsh_5.9_amd64.deb"]),
   ("arm64".toList, [listed "zsh" arm64 "pool/stable/main/z/zsh/zsh_5.9_arm64.deb"])]

/-! ## Properties used in the statements -/

/-- At most one entry per `basename(Filename)`. -/
def UniqueBase (L : List BinaryIndex) : Prop :=
  (L.map (fun y => Base y.Filename)).Nodup

instance (L : List BinaryIndex) : Decidable (UniqueBase L) := by unfold UniqueBase; infer_instance

/-- Every per-cpu list of the index has at most one entry per `basename(Filename)`. -/
def InvIndex (m : IndexMap) : Prop := ∀ cpu, UniqueBase (m.get cpu)

/-- A path element that `path.Clean` keeps as it is: not empty, without a slash, neither
`.` nor `..`. -/
def Plain (e : Str) : Prop := e ≠ [] ∧ '/' ∉ e ∧ e ≠ ['.'] ∧ e ≠ ['.', '.']

instance (e : Str) : Decidable (Plain e) := by unfold Plain; infer_instance

/-- The name a pool path is built from: the `Source` field when the stanza has one, the
`Package` field otherwise. -/
def entryName (idx : BinaryIndex) : Str :=
  match idx.Values.lookup "Source".toList with
  | some source => source
  | none => idx.Package

/-- The attributes of a descriptor set at creation. -/
def immutable (r : Release) :
    Str × Str × Str × Str × Str × List Str × List Arch :=
  (r.Origin, r.Suite, r.Label, r.Codename, r.Description, r.Components, r.Architectures)

/-- A suite name the pattern of `ListRepos` accepts: word characters, at least one. -/
def IsWord (s : Str) : Prop := s ≠ [] ∧ ∀ c ∈ s, isWordChar c = true

instance (s : Str) : Decidable (IsWord s) := by unfold IsWord; infer_instance

/-- The line `ListRepos` writes for the blob at a key, when the blob is there and parses. -/
def lineOf (x : Libs) (s : Store) (k : Str) : Option RepoLine :=
  (s.lookup k).bind (fun file => (x.unmarshalRelease file).map repoLine)

/-- The local file system gives content only for paths that name a file: the last element
of such a path is not `.`, `..` or `/`, which name directories. -/
def ReadsFiles (x : Libs) : Prop :=
  ∀ pkg, x.readLocal pkg ≠ none → Plain (Base pkg)

/-! ## The removal loop -/

theorem removeLoop_noMatch (b : Str) :
    ∀ (k i : Nat) (arr : List BinaryIndex) (len : Nat),
      (∀ y ∈ arr.drop i, b ≠ Base y.Filename) → i + k ≤ arr.length →
      removeLoop b k i arr len = some (arr, len) := by
  intro k
  induction k with
  | zero => intro i arr len _ _; rfl
  | succ k ih =>
    intro i arr len h hlen
    have hi : i < arr.length := by omega
    have hget : arr[i]? = some arr[i] := List.getElem?_eq_getElem hi
    have hmem : arr[i] ∈ arr.drop i := by
      rw [List.drop_eq_getElem_cons hi]; exact List.mem_cons_self _ _
    have hne := h _ hmem
    unfold removeLoop
    rw [hget]
    simp only [hne, if_false]
    apply ih
    · intro y hy
      apply h
      rw [List.drop_eq_getElem_cons hi]
      exact List.mem_cons_of_mem _ hy
    · omega

theorem removeLoop_unique (b : Str) :
    ∀ (k i : Nat) (L : List BinaryIndex), i + k = L.length →
      ((L.drop i).map (fun y => Base y.Filename)).Nodup →
      ∃ r, removeLoop b k i L L.length = some r ∧
        r.1.take r.2 = L.take i ++ (L.drop i).filter (fun y => decide (b ≠ Base y.Filename)) := by
  intro k
  induction k with
  | zero =>
    intro i L hlen _
    refine ⟨(L, L.length), rfl, ?_⟩
    have : i = L.length := by omega
    subst this
    simp
  | succ k ih =>
    intro i L hlen hnd
    have hi : i < L.length := by omega
    have hget : L[i]? = some L[i] := List.getElem?_eq_getElem hi
    have hdrop : L.drop i = L[i] :: L.drop (i + 1) := List.drop_eq_getElem_cons hi
    rw [hdrop, List.map_cons, List.nodup_cons] at hnd
    unfold removeLoop
    rw [hget]
    by_cases hb : b = Base L[i].Filename
    · subst hb
      simp only [if_true]
      have hle : i + 1 ≤ L.length := hi
      simp only [hle, if_true]
      have hrest : ∀ y ∈ L.drop (i + 1), Base L[i].Filename ≠ Base y.Filename := by
        intro y hy heq
        apply hnd.1
        rw [heq]
        exact List.mem_map_of_mem _ hy
      have htk : (L.drop (i + 1)).take (L.length - (i + 1)) = L.drop (i + 1) := by
        apply List.take_of_length_le
        simp
      rw [htk]
      have hlen1 : (L.take i).length = i := by simp; omega
      refine ⟨_, removeLoop_noMatch _ k (i + 1) _ _ ?_ ?_, ?_⟩
      · intro y hy
        have hy1 : y ∈ (L.drop (i + 1) ++ L.drop (L.length - 1)).drop 1 := by
          have := hy
          rw [List.append_assoc, List.drop_append_eq_append_drop, hlen1] at this
          simpa [List.drop_of_length_le, hlen1] using this
        rcases Nat.eq_zero_or_pos k with hk | hk
        · have hA : L.drop (i + 1) = [] := List.drop_of_length_le (by omega)
          have hB : (L.drop (L.length - 1)).drop 1 = [] := by
            rw [List.drop_drop]; exact List.drop_of_length_le (by omega)
          rw [hA, List.nil_append, hB] at hy1
          exact absurd hy1 (List.not_mem_nil _)
        · have hy2 := List.mem_of_mem_drop hy1
          rcases List.mem_append.mp hy2 with h1 | h2
          · exact hrest y h1
          · apply hrest y
            have : L.drop (L.length - 1) = (L.drop (i + 1)).drop (L.length - 1 - (i + 1)) := by
              rw [List.drop_drop]; congr 1; omega
            rw [this] at h2
            exact List.mem_of_mem_drop h2
      · simp; omega
      · show List.take (L.length - 1) (L.take i ++ L.drop (i + 1) ++ L.drop (L.length - 1)) = _
        have hX : (L.take i ++ L.drop (i + 1)).length = L.length - 1 := by
          simp; omega
        rw [List.take_append_of_le_length (by omega), List.take_of_length_le (by omega), hdrop]
        have hf : ∀ y ∈ L.drop (i + 1), decide (Base L[i].Filename ≠ Base y.Filename) = true := by
          intro y hy
          have := hrest y hy
          simpa using this
        rw [List.filter_cons_of_neg (by simp), List.filter_eq_self.mpr hf]
    · simp only [hb, if_false]
      obtain ⟨r, hr, heq⟩ := ih (i + 1) L (by omega) hnd.2
      refine ⟨r, hr, ?_⟩
      rw [heq, hdrop]
      have ht : L.take (i + 1) = L.take i ++ [L[i]] := by
        rw [List.take_succ, hget]; rfl
      rw [List.filter_cons_of_pos (by simpa using hb), ht, List.append_assoc]
      rfl

theorem updateList_unique (b : Str) (e : BinaryIndex) (L : List BinaryIndex)
    (h : UniqueBase L) :
    updateList b e L = some (L.filter (fun y => decide (b ≠ Base y.Filename)) ++ [e]) := by
  obtain ⟨r, hr, heq⟩ := removeLoop_unique b L.length 0 L (by simp) (by simpa using h)
  unfold updateList
  rw [hr]
  simp [heq]

theorem splitSlash_ne_nil (p : Str) : splitSlash p ≠ [] := by
  cases p with
  | nil => simp [splitSlash]
  | cons c cs =>
    unfold splitSlash
    split
    · simp
    · split <;> simp

theorem splitSlash_append (a c : Str) :
    splitSlash (a ++ '/' :: c) = splitSlash a ++ splitSlash c := by
  induction a with
  | nil => simp [splitSlash]
  | cons x a ih =>
    rw [List.cons_append]
    by_cases hx : x = '/'
    · subst hx
      simp [splitSlash, ih]
    · rw [splitSlash, if_neg hx, ih, splitSlash.eq_2 x a, if_neg hx]
      cases h : splitSlash a with
      | nil => exact absurd h (splitSlash_ne_nil a)
      | cons y ys => simp

theorem splitSlash_noSlash (b : Str) (h : '/' ∉ b) : splitSlash b = [b] := by
  induction b with
  | nil => rfl
  | cons x b ih =>
    have hx : x ≠ '/' := fun h1 => h (by simp [h1])
    have hb : '/' ∉ b := fun h1 => h (List.mem_cons_of_mem _ h1)
    rw [splitSlash, if_neg hx, ih hb]

theorem joinSlash_snoc (ys : List Str) (b : Str) :
    joinSlash (ys ++ [b]) = if ys = [] then b else joinSlash ys ++ '/' :: b := by
  induction ys with
  | nil => simp [joinSlash]
  | cons y ys ih =>
    cases ys with
    | nil => simp [joinSlash]
    | cons z zs =>
      have e1 : (y :: z :: zs) ++ [b] = y :: z :: (zs ++ [b]) := rfl
      have e2 : (z :: zs) ++ [b] = z :: (zs ++ [b]) := rfl
      rw [e1, joinSlash, ← e2, ih]
      simp [joinSlash]

theorem Base_append_plain (pre b : Str) (hb : Plain b)
    (hpre : pre = [] ∨ ∃ q, pre = q ++ ['/']) : Base (pre ++ b) = b := by
  obtain ⟨hne, hns, _, _⟩ := hb
  have hlast : ∀ c ∈ b.reverse, (c == '/') = false := by
    intro c hc
    have : c ≠ '/' := fun h => hns (h ▸ (List.mem_reverse.mp hc))
    simpa using this
  have hrev : b.reverse ≠ [] := by simpa using hne
  obtain ⟨c, cs, hcs⟩ := List.exists_cons_of_ne_nil hrev
  have hc : (c == '/') = false := hlast c (by rw [hcs]; simp)
  have hstrip : ((pre ++ b).reverse.dropWhile (fun c => c == '/')) = (pre ++ b).reverse := by
    rw [List.reverse_append, hcs, List.cons_append, List.dropWhile_cons_of_neg (by simp [hc])]
  have htake : ((pre ++ b).reverse.takeWhile (fun c => c != '/')) = b.reverse := by
    rw [List.reverse_append]
    have hall : ∀ c ∈ b.reverse, (c != '/') = true := by
      intro c hc; have := hlast c hc; simp at this; simpa using this
    rcases hpre with h | ⟨q, h⟩
    · subst h
      simp only [List.reverse_nil, List.append_nil]
      exact List.takeWhile_eq_self_iff.mpr hall
    · subst h
      rw [List.reverse_append, List.reverse_singleton, List.singleton_append,
        List.takeWhile_append_of_pos hall]
      simp
  unfold Base
  have hne2 : pre ++ b ≠ [] := by simp [hne]
  simp only [hne2, if_false, hstrip, List.reverse_reverse, htake, hne]


theorem cleanStep_plain (rooted : Bool) (out : List Str) (b : Str) (hb : Plain b) :
    cleanStep rooted out b = b :: out := by
  obtain ⟨h1, _, h3, h4⟩ := hb
  unfold cleanStep
  simp [h1, h3, h4]

theorem Clean_snoc (B b : Str) (hb : Plain b) :
    ∃ pre, (pre = [] ∨ ∃ q, pre = q ++ ['/']) ∧ Clean (B ++ '/' :: b) = pre ++ b := by
  have hne : B ++ '/' :: b ≠ [] := by simp
  unfold Clean
  simp only [hne, if_false]
  generalize decide ((B ++ '/' :: b).head? = some '/') = rt
  rw [splitSlash_append, splitSlash_noSlash b hb.2.1, List.foldl_append, List.foldl_cons,
    List.foldl_nil, cleanStep_plain _ _ _ hb, List.reverse_cons, joinSlash_snoc]
  generalize (List.foldl (cleanStep rt) [] (splitSlash B)).reverse = ys
  have hbne : b ≠ [] := hb.1
  cases rt <;> by_cases hy : ys = []
  · refine ⟨[], Or.inl rfl, ?_⟩
    simp [hy, hbne]
  · refine ⟨joinSlash ys ++ ['/'], Or.inr ⟨joinSlash ys, rfl⟩, ?_⟩
    simp [hy]
  · refine ⟨['/'], Or.inr ⟨[], rfl⟩, ?_⟩
    simp [hy, hbne]
  · refine ⟨'/' :: joinSlash ys ++ ['/'], Or.inr ⟨'/' :: joinSlash ys, rfl⟩, ?_⟩
    simp [hy]

theorem joinBuf_of_ne_nil (buf e : Str) (h : buf ≠ []) : joinBuf buf e = buf ++ '/' :: e := by
  unfold joinBuf
  simp [h]

theorem foldl_joinBuf_ne_nil (xs : List Str) :
    ∀ buf : Str, buf ≠ [] → xs.foldl joinBuf buf ≠ [] := by
  induction xs with
  | nil => intro buf h; simpa using h
  | cons x xs ih =>
    intro buf h
    rw [List.foldl_cons]
    apply ih
    unfold joinBuf
    simp [h]

theorem Base_Join_snoc (x : Str) (xs : List Str) (b : Str) (hx : x ≠ []) (hb : Plain b) :
    Base (Join (x :: xs ++ [b])) = b := by
  have hsum : ((x :: xs ++ [b]).map List.length).sum ≠ 0 := by
    have : 0 < x.length := List.length_pos.mpr hx
    simp only [List.cons_append, List.map_cons, List.sum_cons]
    omega
  have hB : (x :: xs).foldl joinBuf [] ≠ [] := by
    rw [List.foldl_cons]
    apply foldl_joinBuf_ne_nil
    simp [joinBuf, hx]
  unfold Join
  rw [if_neg hsum, List.foldl_append, List.foldl_cons, List.foldl_nil]
  rw [joinBuf_of_ne_nil _ b hB]
  obtain ⟨pre, hpre, hc⟩ := Clean_snoc ((x :: xs).foldl joinBuf []) b hb
  rw [hc]
  exact Base_append_plain pre b hb hpre

theorem IndexMap.get_set (m : IndexMap) (k k2 : Str) (v : List BinaryIndex) :
    (m.set k v).get k2 = if k2 = k then v else m.get k2 := by
  induction m with
  | nil =>
    by_cases h : k2 = k
    · subst h; simp [IndexMap.set, IndexMap.get, List.lookup]
    · have : (k2 == k) = false := by simpa using h
      simp [IndexMap.set, IndexMap.get, List.lookup, this, h]
  | cons kw rest ih =>
    obtain ⟨k1, w⟩ := kw
    unfold IndexMap.get at ih ⊢
    by_cases h1 : k1 = k
    · subst h1
      by_cases h : k2 = k1
      · subst h; simp [IndexMap.set, List.lookup]
      · have : (k2 == k1) = false := by simpa using h
        simp [IndexMap.set, List.lookup, this, h]
    · by_cases h2 : k2 = k1
      · subst h2
        have hne : ¬ k2 = k := h1
        simp [IndexMap.set, List.lookup, h1, hne]
      · have : (k2 == k1) = false := by simpa using h2
        simp only [IndexMap.set, h1, if_false, List.lookup, this]
        exact ih

theorem poolFilename_base (suite component pkg : Str) (idx : BinaryIndex) (fn : Str)
    (h : poolFilename suite component pkg idx = some fn) (hp : Plain (Base pkg)) :
    Base fn = Base pkg := by
  have hpool : PoolDir ≠ [] := by decide
  unfold poolFilename at h
  split at h
  · rename_i source _
    cases hc : firstChar source with
    | none => simp [hc] at h
    | some p =>
      simp only [hc, Option.map_some', Option.some.injEq] at h
      rw [← h]
      exact Base_Join_snoc PoolDir [suite, component, p, source] (Base pkg) hpool hp
  · cases hc : firstChar idx.Package with
    | none => simp [hc] at h
    | some p =>
      simp only [hc, Option.map_some', Option.some.injEq] at h
      rw [← h]
      exact Base_Join_snoc PoolDir [suite, component, p, idx.Package] (Base pkg) hpool hp

theorem buildEntry_base (x : Libs) (suite component pkg : Str) (data : Bytes)
    (idx e : BinaryIndex) (h : buildEntry x suite component pkg data idx = some e)
    (hp : Plain (Base pkg)) : Base e.Filename = Base pkg := by
  unfold buildEntry at h
  simp only [Option.map_eq_some'] at h
  obtain ⟨fn, hfn, he⟩ := h
  rw [← he]
  exact poolFilename_base _ _ _ _ _ hfn hp

theorem updateList_uniqueBase (b : Str) (e : BinaryIndex) (L : List BinaryIndex)
    (h : UniqueBase L) (hb : Base e.Filename = b) :
    ∃ L2, updateList b e L = some L2 ∧ UniqueBase L2 := by
  refine ⟨_, updateList_unique b e L h, ?_⟩
  unfold UniqueBase at h ⊢
  rw [List.map_append, List.nodup_append]
  refine ⟨(h.sublist ((List.filter_sublist _).map _)), by simp, ?_⟩
  intro a ha1 ha2
  simp only [List.map_cons, List.map_nil, List.mem_singleton] at ha2
  rw [List.mem_map] at ha1
  obtain ⟨y, hy, hya⟩ := ha1
  have := (List.mem_filter.mp hy).2
  simp only [decide_eq_true_eq] at this
  exact this (by rw [hya, ha2, hb])

theorem updateCpu_inv (b : Str) (e : BinaryIndex) (m : IndexMap) (cpu : Str)
    (h : InvIndex m) (hb : Base e.Filename = b) :
    ∃ m2, updateCpu b e m cpu = some m2 ∧ InvIndex m2 := by
  obtain ⟨L2, hL, hu⟩ := updateList_uniqueBase b e (m.get cpu) (h cpu) hb
  refine ⟨m.set cpu L2, by simp [updateCpu, hL], ?_⟩
  intro k
  rw [IndexMap.get_set]
  split
  · exact hu
  · exact h k

theorem foldl_updateCpu_inv (b : Str) (e : BinaryIndex) (hb : Base e.Filename = b)
    (archs : List Arch) :
    ∀ m : IndexMap, InvIndex m →
      ∃ m2, archs.foldlM (fun acc a => updateCpu b e acc a.CPU) m = some m2 ∧ InvIndex m2 := by
  induction archs with
  | nil => intro m h; exact ⟨m, rfl, h⟩
  | cons a rest ih =>
    intro m h
    obtain ⟨m1, h1, hi1⟩ := updateCpu_inv b e m a.CPU h hb
    obtain ⟨m2, h2, hi2⟩ := ih m1 hi1
    exact ⟨m2, by simp [List.foldlM_cons, h1, h2], hi2⟩

theorem indexUpdate_inv (archs : List Arch) (b : Str) (e : BinaryIndex) (m : IndexMap)
    (h : InvIndex m) (hb : Base e.Filename = b) :
    ∃ m2, indexUpdate archs b e m = some m2 ∧ InvIndex m2 := by
  unfold indexUpdate
  split
  · exact foldl_updateCpu_inv b e hb archs m h
  · exact updateCpu_inv b e m _ h hb

theorem parseEntry_reads (x : Libs) (r : Release) (pkg : Str) (data : Bytes) (idx : BinaryIndex)
    (h : parseEntry x r pkg = .ok (data, idx)) : x.readLocal pkg = some data := by
  unfold parseEntry at h
  split at h
  · cases h
  · split at h
    · cases h
    · split at h
      · cases h
      · split at h
        · cases h
        · rename_i d _ _ _ _ _ _
          simp only [Except.ok.injEq, Prod.mk.injEq] at h
          rw [← h.1]
          assumption

theorem worker_inv (x : Libs) (f : Faults) (r : Release) (suite component pkg : Str)
    (m : IndexMap) (s : Store) (hfs : ReadsFiles x) (h : InvIndex m) :
    InvIndex (worker x f r suite component pkg m s).2.1 := by
  unfold worker
  split
  · exact h
  · rename_i data idx0 hp
    have hplain : Plain (Base pkg) := hfs pkg (by rw [parseEntry_reads x r pkg data idx0 hp]; simp)
    split
    · exact h
    · rename_i idx hbe
      have hb := buildEntry_base x suite component pkg data idx0 idx hbe hplain
      obtain ⟨m2, hm2, hi2⟩ := indexUpdate_inv r.Architectures (Base pkg) idx m h hb
      rw [hm2]
      exact hi2

theorem runWorkers_inv (x : Libs) (f : Faults) (r : Release) (suite component : Str)
    (hfs : ReadsFiles x) (pkgs : List Str) :
    ∀ (first : Option Err) (m : IndexMap) (s : Store), InvIndex m →
      InvIndex (runWorkers x f r suite component pkgs first m s).2.1 := by
  induction pkgs with
  | nil => intro first m s h; exact h
  | cons pkg rest ih =>
    intro first m s h
    have hw := worker_inv x f r suite component pkg m s hfs h
    unfold runWorkers
    split
    · rename_i m1 s1 heq
      rw [heq] at hw
      exact hw
    · rename_i e m1 s1 _ heq
      rw [heq] at hw
      exact ih _ m1 s1 hw

theorem removeLoop_succ (b : Str) (k i : Nat) (arr : List BinaryIndex) (len : Nat)
    (x : BinaryIndex) (h : arr[i]? = some x) :
    removeLoop b (k + 1) i arr len =
      if b = Base x.Filename then
        if i + 1 ≤ len then
          removeLoop b k (i + 1)
            (arr.take i ++ (arr.drop (i + 1)).take (len - (i + 1)) ++ arr.drop (len - 1)) (len - 1)
        else none
      else removeLoop b k (i + 1) arr len := by
  rw [removeLoop, h]

/-- Once the list has been shortened, a match in the last place of the array makes the loop
panic: the slice `m.index[cpu][i+1:]` is out of range there. -/
theorem removeLoop_short (b : Str) :
    ∀ (k i : Nat) (arr : List BinaryIndex) (len : Nat) (e : BinaryIndex),
      i + (k + 1) = arr.length → len < arr.length →
      arr[arr.length - 1]? = some e → b = Base e.Filename →
      removeLoop b (k + 1) i arr len = none := by
  intro k
  induction k with
  | zero =>
    intro i arr len e hik hlen he hb
    have hi : i = arr.length - 1 := by omega
    rw [removeLoop_succ b 0 i arr len e (by rw [hi]; exact he), if_pos hb, if_neg (by omega)]
  | succ k ih =>
    intro i arr len e hik hlen he hb
    have hi : i < arr.length := by omega
    have hget : arr[i]? = some arr[i] := List.getElem?_eq_getElem hi
    rw [removeLoop_succ b (k + 1) i arr len _ hget]
    by_cases hm : b = Base arr[i].Filename
    · rw [if_pos hm]
      by_cases hle : i + 1 ≤ len
      · rw [if_pos hle]
        have hlen2 : (arr.take i ++ (arr.drop (i + 1)).take (len - (i + 1)) ++
            arr.drop (len - 1)).length = arr.length := by
          simp; omega
        apply ih _ _ _ e
        · rw [hlen2]; omega
        · rw [hlen2]; omega
        · rw [hlen2, List.getElem?_append_right (by simp; omega), List.getElem?_drop, ← he]
          congr 1
          simp
          omega
        · exact hb
      · rw [if_neg hle]
    · rw [if_neg hm]
      exact ih _ _ _ e (by omega) hlen he hb

/-- On a list that ends with a match, the loop completes only by leaving everything before
the last place as it is. -/
theorem removeLoop_last (b : Str) (L : List BinaryIndex) (e : BinaryIndex)
    (he : L[L.length - 1]? = some e) (hb : b = Base e.Filename) :
    ∀ (k i : Nat) (r : List BinaryIndex × Nat), i + (k + 1) = L.length →
      removeLoop b (k + 1) i L L.length = some r →
      r.1.take r.2 = L.take (L.length - 1) := by
  intro k
  induction k with
  | zero =>
    intro i r hik hr
    have hi : i = L.length - 1 := by omega
    rw [removeLoop_succ b 0 i L _ e (by rw [hi]; exact he), if_pos hb, if_pos (by omega)] at hr
    simp only [removeLoop, Option.some.injEq] at hr
    rw [← hr, hi]
    have h1 : L.length - (L.length - 1 + 1) = 0 := by omega
    rw [h1, List.take_zero, List.append_nil]
    exact List.take_left' (by simp)
  | succ k ih =>
    intro i r hik hr
    have hi : i < L.length := by omega
    have hget : L[i]? = some L[i] := List.getElem?_eq_getElem hi
    rw [removeLoop_succ b (k + 1) i L _ _ hget] at hr
    by_cases hm : b = Base L[i].Filename
    · rw [if_pos hm, if_pos (by omega)] at hr
      have hlen1 : (L.take i ++ (L.drop (i + 1)).take (L.length - (i + 1))).length
          = L.length - 1 := by
        simp; omega
      have hlen2 : (L.take i ++ (L.drop (i + 1)).take (L.length - (i + 1)) ++
          L.drop (L.length - 1)).length = L.length := by
        rw [List.length_append, hlen1, List.length_drop]; omega
      have hnone := removeLoop_short b k (i + 1) _ (L.length - 1) e
        (by rw [hlen2]; omega) (by rw [hlen2]; omega)
        (by
          rw [hlen2, List.getElem?_append_right (by rw [hlen1]), hlen1, List.getElem?_drop]
          rw [← he]
          congr 1
          omega) hb
      rw [hnone] at hr
      cases hr
    · rw [if_neg hm] at hr
      exact ih (i + 1) r (by omega) hr

theorem updateList_last (b : Str) (e e2 : BinaryIndex) (M L2 : List BinaryIndex)
    (hb : b = Base e.Filename) (h : updateList b e2 (M ++ [e]) = some L2) :
    L2 = M ++ [e2] := by
  unfold updateList at h
  simp only [Option.map_eq_some'] at h
  obtain ⟨r, hr, h2⟩ := h
  have hlen : (M ++ [e]).length = M.length + 1 := by simp
  have hlast : (M ++ [e])[(M ++ [e]).length - 1]? = some e := by
    rw [hlen]; simp
  have h3 : removeLoop b (M.length + 1) 0 (M ++ [e]) (M ++ [e]).length = some r := by
    rw [← hlen]; exact hr
  have := removeLoop_last b (M ++ [e]) e hlast hb M.length 0 r (by simp) h3
  rw [← h2, this, hlen]
  simp

theorem updateList_ends (b : Str) (e : BinaryIndex) (L L2 : List BinaryIndex)
    (h : updateList b e L = some L2) : ∃ M, L2 = M ++ [e] := by
  unfold updateList at h
  simp only [Option.map_eq_some'] at h
  obtain ⟨r, _, h2⟩ := h
  exact ⟨_, h2.symm⟩

theorem updateCpu_get (b : Str) (e : BinaryIndex) (m m2 : IndexMap) (cpu : Str)
    (h : updateCpu b e m cpu = some m2) :
    (∃ M, m2.get cpu = M ++ [e]) ∧ ∀ k, k ≠ cpu → m2.get k = m.get k := by
  unfold updateCpu at h
  simp only [Option.map_eq_some'] at h
  obtain ⟨L2, hL, hm⟩ := h
  obtain ⟨M, hM⟩ := updateList_ends b e _ L2 hL
  subst hm
  constructor
  · exact ⟨M, by rw [IndexMap.get_set, if_pos rfl, hM]⟩
  · intro k hk
    rw [IndexMap.get_set, if_neg hk]

theorem updateCpu_keeps_last (b : Str) (e : BinaryIndex) (m m2 : IndexMap) (cpu k : Str)
    (h : updateCpu b e m cpu = some m2) (hk : ∃ M, m.get k = M ++ [e]) :
    ∃ M, m2.get k = M ++ [e] := by
  obtain ⟨h1, h2⟩ := updateCpu_get b e m m2 cpu h
  by_cases hc : k = cpu
  · subst hc; exact h1
  · rw [h2 k hc]; exact hk

theorem foldl_updateCpu_keeps_last (b : Str) (e : BinaryIndex) (k : Str) (archs : List Arch) :
    ∀ m m2 : IndexMap, archs.foldlM (fun acc a => updateCpu b e acc a.CPU) m = some m2 →
      (∃ M, m.get k = M ++ [e]) → ∃ M, m2.get k = M ++ [e] := by
  induction archs with
  | nil =>
    intro m m2 h hk
    simp only [List.foldlM_nil, Option.pure_def, Option.some.injEq] at h
    subst h; exact hk
  | cons a rest ih =>
    intro m m2 h hk
    simp only [List.foldlM_cons, Option.bind_eq_bind, Option.bind_eq_some] at h
    obtain ⟨m1, h1, h2⟩ := h
    exact ih m1 m2 h2 (updateCpu_keeps_last b e m m1 a.CPU k h1 hk)

theorem foldl_updateCpu_last (b : Str) (e : BinaryIndex) (archs : List Arch) :
    ∀ m m2 : IndexMap, archs.foldlM (fun acc a => updateCpu b e acc a.CPU) m = some m2 →
      ∀ a ∈ archs, ∃ M, m2.get a.CPU = M ++ [e] := by
  induction archs with
  | nil => intro m m2 _ a ha; exact absurd ha (List.not_mem_nil _)
  | cons a0 rest ih =>
    intro m m2 h a ha
    simp only [List.foldlM_cons, Option.bind_eq_bind, Option.bind_eq_some] at h
    obtain ⟨m1, h1, h2⟩ := h
    rcases List.mem_cons.mp ha with rfl | hr
    · exact foldl_updateCpu_keeps_last b e _ rest m1 m2 h2 (updateCpu_get b e m m1 _ h1).1
    · exact ih m1 m2 h2 a hr

theorem updateCpu_again (b : Str) (e : BinaryIndex) (hb : Base e.Filename = b)
    (m1 acc acc2 : IndexMap) (cpu : Str) (hacc : ∀ k, acc.get k = m1.get k)
    (hlast : ∃ M, m1.get cpu = M ++ [e]) (h : updateCpu b e acc cpu = some acc2) :
    ∀ k, acc2.get k = m1.get k := by
  unfold updateCpu at h
  simp only [Option.map_eq_some'] at h
  obtain ⟨L2, hL, hm⟩ := h
  obtain ⟨M, hM⟩ := hlast
  rw [hacc cpu, hM] at hL
  have := updateList_last b e e M L2 hb.symm hL
  subst hm
  intro k
  rw [IndexMap.get_set]
  split
  · rename_i hk; rw [hk, hM, this]
  · exact hacc k

theorem foldl_updateCpu_again (b : Str) (e : BinaryIndex) (hb : Base e.Filename = b)
    (m1 : IndexMap) (archs : List Arch) (hlast : ∀ a ∈ archs, ∃ M, m1.get a.CPU = M ++ [e]) :
    ∀ acc acc2 : IndexMap, (∀ k, acc.get k = m1.get k) →
      archs.foldlM (fun acc a => updateCpu b e acc a.CPU) acc = some acc2 →
      ∀ k, acc2.get k = m1.get k := by
  induction archs with
  | nil =>
    intro acc acc2 hacc h
    simp only [List.foldlM_nil, Option.pure_def, Option.some.injEq] at h
    subst h; exact hacc
  | cons a rest ih =>
    intro acc acc2 hacc h
    simp only [List.foldlM_cons, Option.bind_eq_bind, Option.bind_eq_some] at h
    obtain ⟨acc1, h1, h2⟩ := h
    have := updateCpu_again b e hb m1 acc acc1 a.CPU hacc (hlast a (List.mem_cons_self _ _)) h1
    exact ih (fun a' ha' => hlast a' (List.mem_cons_of_mem _ ha')) acc1 acc2 this h2

theorem demoLibs_readsFiles : ReadsFiles demoLibs := by
  intro pkg h
  by_cases h1 : pkg = "build/hello_1.0_amd64.deb".toList
  · subst h1; decide
  · by_cases h2 : pkg = "build/exotic_1.0_mips64.deb".toList
    · subst h2; decide
    · by_cases h3 : pkg = "build/nameless.deb".toList
      · subst h3; decide
      · exact absurd (by show (if _ then _ else _) = none; rw [if_neg h1, if_neg h2, if_neg h3]) h

theorem invIndex_of_lists (m : IndexMap) (h : ∀ kv ∈ m, UniqueBase kv.2) : InvIndex m := by
  intro cpu
  unfold IndexMap.get
  cases hl : m.lookup cpu with
  | none => simp [UniqueBase]
  | some L =>
    have hmem : (cpu, L) ∈ m := by
      clear h
      induction m with
      | nil => simp [List.lookup] at hl
      | cons kv rest ih =>
        obtain ⟨k, w⟩ := kv
        by_cases hk : cpu = k
        · subst hk
          simp [List.lookup] at hl
          simp [hl]
        · have : (cpu == k) = false := by simpa using hk
          simp only [List.lookup, this] at hl
          exact List.mem_cons_of_mem _ (ih hl)
    exact h _ hmem

theorem invIndex_sampleIndex : InvIndex sampleIndex :=
  invIndex_of_lists sampleIndex (by decide)

theorem joinSlash_cons_append (a c : Str) (cs : List Str) :
    joinSlash ((a ++ '/' :: c) :: cs) = a ++ '/' :: joinSlash (c :: cs) := by
  cases cs with
  | nil => simp [joinSlash]
  | cons d ds => simp [joinSlash]

theorem foldl_joinBuf_eq (cs : List Str) :
    ∀ buf : Str, buf ≠ [] → cs.foldl joinBuf buf = joinSlash (buf :: cs) := by
  induction cs with
  | nil => intro buf _; simp [joinSlash]
  | cons c cs ih =>
    intro buf h
    rw [List.foldl_cons, joinBuf_of_ne_nil buf c h, ih _ (by simp), joinSlash_cons_append]
    simp [joinSlash]

theorem Join_cons (x : Str) (cs : List Str) (hx : x ≠ []) :
    Join (x :: cs) = Clean (joinSlash (x :: cs)) := by
  have hsum : ((x :: cs).map List.length).sum ≠ 0 := by
    have : 0 < x.length := List.length_pos.mpr hx
    simp only [List.map_cons, List.sum_cons]
    omega
  unfold Join
  rw [if_neg hsum, List.foldl_cons]
  have : joinBuf [] x = x := by simp [joinBuf, hx]
  rw [this, foldl_joinBuf_eq cs x hx]

theorem splitSlash_joinSlash (cs : List Str) (hne : cs ≠ []) (h : ∀ c ∈ cs, '/' ∉ c) :
    splitSlash (joinSlash cs) = cs := by
  induction cs with
  | nil => exact absurd rfl hne
  | cons c cs ih =>
    cases cs with
    | nil => simpa [joinSlash] using splitSlash_noSlash c (h c (by simp))
    | cons d ds =>
      rw [joinSlash, splitSlash_append, splitSlash_noSlash c (h c (by simp)),
        ih (by simp) (fun y hy => h y (List.mem_cons_of_mem _ hy))]
      rfl

theorem foldl_cleanStep_plain (rooted : Bool) (cs : List Str) (h : ∀ c ∈ cs, Plain c) :
    ∀ acc : List Str, cs.foldl (cleanStep rooted) acc = cs.reverse ++ acc := by
  induction cs with
  | nil => intro acc; rfl
  | cons c cs ih =>
    intro acc
    rw [List.foldl_cons, cleanStep_plain rooted acc c (h c (by simp)),
      ih (fun y hy => h y (List.mem_cons_of_mem _ hy))]
    simp

theorem joinSlash_head (c : Str) (cs : List Str) (x : Char) (xs : Str) (hc : c = x :: xs) :
    joinSlash (c :: cs) = x :: (joinSlash (xs :: cs)) := by
  subst hc
  cases cs with
  | nil => simp [joinSlash]
  | cons d ds => simp [joinSlash]

theorem Clean_joinSlash_plain (cs : List Str) (hne : cs ≠ []) (h : ∀ c ∈ cs, Plain c) :
    Clean (joinSlash cs) = joinSlash cs := by
  obtain ⟨c, rest, rfl⟩ := List.exists_cons_of_ne_nil hne
  have hc := h c (by simp)
  obtain ⟨x, xs, hx⟩ := List.exists_cons_of_ne_nil hc.1
  have hxs : x ≠ '/' := fun hs => hc.2.1 (by rw [hx, hs]; simp)
  have hj := joinSlash_head c rest x xs hx
  have hnn : joinSlash (c :: rest) ≠ [] := by rw [hj]; simp
  have hroot : decide ((joinSlash (c :: rest)).head? = some '/') = false := by
    rw [hj]; simpa using hxs
  unfold Clean
  simp only [hnn, if_false, hroot]
  rw [splitSlash_joinSlash _ hne (fun y hy => (h y hy).2.1), foldl_cleanStep_plain _ _ h]
  simp [hnn]

theorem poolFilename_eq (suite component pkg : Str) (idx : BinaryIndex) :
    poolFilename suite component pkg idx =
      (firstChar (entryName idx)).map
        (fun p => Join [PoolDir, suite, component, p, entryName idx, Base pkg]) := by
  unfold poolFilename entryName
  split <;> simp_all

/-! ## Errors of `UploadPkgs` -/

theorem ReadFile_error (f : Faults) (s : Store) (p : Str) (e : Err)
    (h : ReadFile f s p = .error e) : e = .transport := by
  unfold ReadFile at h
  split at h
  · cases h; rfl
  · split at h
    · cases h; rfl
    · cases h

theorem WriteFile_error (f : Faults) (s : Store) (p : Str) (d : Bytes) :
    (WriteFile f s p d).1 ≠ some .unsupportedComponent := by
  unfold WriteFile
  split <;> simp

theorem findControl_error (t : TarStream) (e : Err) (h : findControl t = .error e) :
    e ≠ .unsupportedComponent := by
  induction t with
  | eof => cases h
  | err => cases h; simp
  | entry name body rest ih =>
    unfold findControl at h
    split at h
    · split at h
      · cases h
      · cases h; simp
    · exact ih h

theorem readControlFile_error (a : ArStream) (e : Err) (h : readControlFile a = .error e) :
    e ≠ .unsupportedComponent := by
  induction a with
  | eof => cases h; simp
  | err => cases h; simp
  | member name fails tar rest ih =>
    unfold readControlFile at h
    split at h
    · simp only at h
      split at h
      · split at h
        · cases h; simp
        · split at h
          · rename_i e2 he
            cases h
            exact findControl_error tar _ he
          · cases h
          · exact ih h
      · cases h; simp
    · exact ih h

theorem parseEntry_error (x : Libs) (r : Release) (pkg : Str) (e : Err)
    (h : parseEntry x r pkg = .error e) : e ≠ .unsupportedComponent := by
  unfold parseEntry at h
  split at h
  · cases h; simp
  · split at h
    · rename_i e2 he
      cases h
      exact readControlFile_error _ _ he
    · split at h
      · cases h; simp
      · split at h
        · cases h; simp
        · cases h

theorem worker_error (x : Libs) (f : Faults) (r : Release) (suite component pkg : Str)
    (m : IndexMap) (s : Store) :
    (worker x f r suite component pkg m s).1 ≠ some .unsupportedComponent := by
  unfold worker
  split
  · rename_i e he
    have := parseEntry_error x r pkg e he
    simpa using this
  · split
    · simp
    · split
      · simp
      · exact WriteFile_error _ _ _ _

theorem runWorkers_error (x : Libs) (f : Faults) (r : Release) (suite component : Str)
    (pkgs : List Str) :
    ∀ (first : Option Err) (m : IndexMap) (s : Store), first ≠ some .unsupportedComponent →
      (runWorkers x f r suite component pkgs first m s).1 ≠ some .unsupportedComponent := by
  induction pkgs with
  | nil => intro first m s h; exact h
  | cons pkg rest ih =>
    intro first m s h
    have hw := worker_error x f r suite component pkg m s
    unfold runWorkers
    split
    · simp
    · rename_i e m1 s1 _ heq
      rw [heq] at hw
      apply ih
      cases first with
      | none => simpa using hw
      | some e0 => simpa using h

theorem getRelease_error (x : Libs) (f : Faults) (s : Store) (suite : Str) (e : Err)
    (h : getRelease x f s suite = .error e) : e ≠ .unsupportedComponent := by
  unfold getRelease at h
  split at h
  · rename_i e2 he
    cases h
    rw [ReadFile_error _ _ _ _ he]; simp
  · split at h
    · cases h; simp
    · cases h

theorem loadIndexes_error (x : Libs) (f : Faults) (s : Store) (suite component : Str)
    (archs : List Arch) :
    ∀ (m : IndexMap) (e : Err), loadIndexes x f s suite component archs m = .error e →
      e ≠ .unsupportedComponent := by
  induction archs with
  | nil => intro m e h; cases h
  | cons a rest ih =>
    intro m e h
    unfold loadIndexes getBinaryIndexes at h
    split at h
    · rename_i e2 he
      cases h
      split at he
      · rename_i e3 he3
        cases he
        rw [ReadFile_error _ _ _ _ he3]; simp
      · split at he
        · cases he; simp
        · cases he
    · exact ih _ e h

theorem walkPackages_error (x : Libs) (f : Faults) (s : Store) (suite : Str)
    (keys : List Str) :
    ∀ (m : Manifests) (e : Err), walkPackages x f s suite keys m = .error e →
      e ≠ .unsupportedComponent := by
  induction keys with
  | nil => intro m e h; cases h
  | cons k rest ih =>
    intro m e h
    unfold walkPackages at h
    split at h
    · cases h; simp
    · split at h
      · exact ih _ e h
      · split at h
        · rename_i e2 he
          cases h
          rw [ReadFile_error _ _ _ _ he]; simp
        · exact ih _ e h

theorem rebuildRelease_error (x : Libs) (f : Faults) (s : Store) (r : Release) :
    (rebuildRelease x f s r).1 ≠ some .unsupportedComponent := by
  unfold rebuildRelease
  split
  · rename_i e he
    have := walkPackages_error x f s _ _ _ e he
    simpa using this
  · unfold writeRelease
    split
    · simp
    · split
      · simp
      · exact WriteFile_error _ _ _ _

theorem writeIndexes_error (x : Libs) (f : Faults) (r : Release) (component : Str)
    (m : IndexMap) :
    ∀ s : Store, (writeIndexes x f r component m s).1 ≠ some .unsupportedComponent := by
  induction m with
  | nil => intro s; simp [writeIndexes]
  | cons kv rest ih =>
    intro s
    obtain ⟨k, index⟩ := kv
    unfold writeIndexes
    split
    · simp
    · split
      · rename_i e s1 heq
        have := WriteFile_error f s
          (Join [DistsDir, r.Suite, component, "binary-".toList ++ k, PackagesFile]) (by assumption)
        rw [heq] at this
        exact this
      · exact ih _

theorem UploadPkgs_error (x : Libs) (f : Faults) (s : Store) (suite component : Str)
    (pkgs : List Str) :
    (UploadPkgs x f s suite component pkgs).1 ≠ some .unsupportedComponent := by
  unfold UploadPkgs
  split
  · split
    · rename_i e he
      have := getRelease_error x f s suite e he
      simpa using this
    · split
      · rename_i e he
        have := loadIndexes_error x f s suite component _ _ e he
        simpa using this
      · rename_i r _ _ m _
        split
        · rename_i e m1 s1 heq
          have := runWorkers_error x f r suite component pkgs none m s (by simp)
          rw [heq] at this
          exact this
        · unfold writeBinaryIndexes
          split
          · rename_i m1 s1 _ _ e s2 heq
            have := writeIndexes_error x f r component m1 s1
            rw [heq] at this
            exact this
          · exact rebuildRelease_error _ _ _ _
  · simp

/-! ## Creating and reading back a descriptor -/

theorem Store.lookup_put_self (s : Store) (p : Str) (d : Bytes) :
    (s.put p d).lookup p = some d := by
  induction s with
  | nil => simp [Store.put, List.lookup]
  | cons kw rest ih =>
    obtain ⟨k, w⟩ := kw
    by_cases h : k = p
    · subst h; simp [Store.put, List.lookup]
    · have : (p == k) = false := by simpa using fun h2 : p = k => h h2.symm
      simp only [Store.put, if_neg h, List.lookup, this]
      exact ih

theorem rebuildRelease_ok (x : Libs) (f : Faults) (s s2 : Store) (r : Release)
    (h : rebuildRelease x f s r = (none, s2)) :
    ∃ rf buf data, immutable rf = immutable r ∧ x.marshalRelease rf = some buf ∧
      x.signData buf = some data ∧ f.write (Join [DistsDir, r.Suite, ReleaseFile]) = false ∧
      s2 = s.put (Join [DistsDir, r.Suite, ReleaseFile]) data := by
  unfold rebuildRelease at h
  split at h
  · simp at h
  · rename_i m _
    unfold writeRelease at h
    split at h
    · simp at h
    · rename_i buf hbuf
      split at h
      · simp at h
      · rename_i data hdata
        refine ⟨_, buf, data, ?_, hbuf, hdata, ?_⟩
        · rfl
        · unfold WriteFile at h
          split at h
          · simp at h
          · rename_i hw
            simp only [Prod.mk.injEq, true_and] at h
            exact ⟨by simpa using hw, h.symm⟩

theorem CreateRepo_ok (x : Libs) (f : Faults) (s s2 : Store)
    (origin suite label codename description : Str) (components architectures : List Str)
    (h : CreateRepo x f s origin suite label codename description components architectures
      = (none, s2)) :
    ∃ rf buf data,
      immutable rf = (origin, suite, label, codename, description, components,
        architectures.map (fun a => ({ OS := OS, ABI := ABI, CPU := a } : Arch))) ∧
      x.marshalRelease rf = some buf ∧ x.signData buf = some data ∧
      s2.lookup (Join [DistsDir, suite, ReleaseFile]) = some data := by
  unfold CreateRepo at h
  split at h
  · split at h
    · simp at h
    · rename_i s1 _
      obtain ⟨rf, buf, data, himm, hbuf, hdata, _, hs2⟩ := rebuildRelease_ok x f s1 s2 _ h
      refine ⟨rf, buf, data, himm, hbuf, hdata, ?_⟩
      rw [hs2]
      exact Store.lookup_put_self _ _ _
  · simp at h

/-! ## Listing and deleting repositories -/

theorem IsWord.plain (s : Str) (h : IsWord s) : Plain s := by
  obtain ⟨hne, hw⟩ := h
  refine ⟨hne, ?_, ?_, ?_⟩
  · intro hm
    have := hw _ hm
    exact absurd this (by decide)
  · intro hs
    have := hw '.' (by rw [hs]; simp)
    exact absurd this (by decide)
  · intro hs
    have := hw '.' (by rw [hs]; simp)
    exact absurd this (by decide)

theorem releaseKey_eq (s : Str) (h : Plain s) :
    Join [DistsDir, s, ReleaseFile] = "dists/".toList ++ s ++ "/InRelease".toList := by
  rw [Join_cons DistsDir _ (by decide), Clean_joinSlash_plain _ (by simp)]
  · simp [joinSlash, DistsDir, ReleaseFile]
  · intro y hy
    simp only [List.mem_cons, List.mem_singleton, List.not_mem_nil, or_false] at hy
    rcases hy with rfl | rfl | rfl
    · decide
    · exact h
    · decide

theorem suiteDir_eq (s : Str) (h : Plain s) :
    Join [DistsDir, s] = "dists/".toList ++ s := by
  rw [Join_cons DistsDir _ (by decide), Clean_joinSlash_plain _ (by simp)]
  · simp [joinSlash, DistsDir]
  · intro y hy
    simp only [List.mem_cons, List.mem_singleton, List.not_mem_nil, or_false] at hy
    rcases hy with rfl | rfl
    · decide
    · exact h

theorem matchRelease_word (s : Str) (h : IsWord s) :
    matchRelease ("dists/".toList ++ s ++ "/InRelease".toList) = true := by
  obtain ⟨hne, hw⟩ := h
  have htw : (s ++ "/InRelease".toList).takeWhile isWordChar = s := by
    rw [List.takeWhile_append_of_pos hw]
    simp [List.takeWhile, show isWordChar '/' = false by decide]
  have hdw : (s ++ "/InRelease".toList).dropWhile isWordChar = "/InRelease".toList := by
    rw [List.dropWhile_append_of_pos hw]
    simp [List.dropWhile, show isWordChar '/' = false by decide]
  have hm : matchAt ("dists/".toList ++ s ++ "/InRelease".toList) = true := by
    have hd : ("dists/".toList ++ s ++ "/InRelease".toList).drop 6 = s ++ "/InRelease".toList := by
      simp
    unfold matchAt
    rw [hd, htw, hdw]
    simp [HasPrefix, hne]
  unfold matchRelease
  rw [List.any_eq_true]
  refine ⟨_, ?_, hm⟩
  cases hl : ("dists/".toList ++ s ++ "/InRelease".toList) with
  | nil => simp
  | cons a l => simp

theorem mem_listObjects (s : Store) (pre k : Str) :
    k ∈ listObjects s pre ↔ (∃ d, (k, d) ∈ s) ∧ HasPrefix k pre = true := by
  unfold listObjects
  simp only [List.mem_map, List.mem_filter, Prod.exists, exists_and_right, exists_eq_right]

theorem Store.mem_of_lookup (s : Store) (k : Str) (d : Bytes) (h : s.lookup k = some d) :
    (k, d) ∈ s := by
  induction s with
  | nil => simp [List.lookup] at h
  | cons kv rest ih =>
    obtain ⟨k1, w⟩ := kv
    by_cases hk : k = k1
    · subst hk
      simp [List.lookup] at h
      simp [h]
    · have : (k == k1) = false := by simpa using hk
      simp only [List.lookup, this] at h
      exact List.mem_cons_of_mem _ (ih h)

theorem listWalk_ok (x : Libs) (f : Faults) (s : Store) (keys : List Str) :
    ∀ (acc lines : List RepoLine), listWalk x f s keys acc = .ok lines →
      ∃ L, lines = acc ++ L ∧ (keys.filter matchRelease).map (lineOf x s) = L.map some := by
  induction keys with
  | nil =>
    intro acc lines h
    simp only [listWalk, Except.ok.injEq] at h
    exact ⟨[], by simp [h], rfl⟩
  | cons k rest ih =>
    intro acc lines h
    unfold listWalk at h
    split at h
    · cases h
    · split at h
      · rename_i hm
        split at h
        · cases h
        · rename_i file hfile
          split at h
          · cases h
          · rename_i release hrel
            obtain ⟨L, hL, hmap⟩ := ih _ _ h
            refine ⟨repoLine release :: L, by rw [hL]; simp, ?_⟩
            have hline : lineOf x s k = some (repoLine release) := by
              unfold ReadFile at hfile
              split at hfile
              · cases hfile
              · split at hfile
                · cases hfile
                · rename_i d hd
                  cases hfile
                  simp [lineOf, hd, hrel]
            rw [List.filter_cons_of_pos hm, List.map_cons, hline, hmap]
            rfl
      · rename_i hm
        obtain ⟨L, hL, hmap⟩ := ih _ _ h
        exact ⟨L, hL, by rw [List.filter_cons_of_neg hm]; exact hmap⟩

theorem listWalk_total (x : Libs) (f : Faults) (s : Store) (keys : List Str)
    (hlist : ∀ k ∈ keys, f.list k = false)
    (hread : ∀ k ∈ keys, matchRelease k = true → f.read k = false ∧ (lineOf x s k).isSome) :
    ∀ acc : List RepoLine, ∃ lines, listWalk x f s keys acc = .ok lines := by
  induction keys with
  | nil => intro acc; exact ⟨acc, rfl⟩
  | cons k rest ih =>
    intro acc
    have ih2 := ih (fun k2 h2 => hlist k2 (List.mem_cons_of_mem _ h2))
      (fun k2 h2 => hread k2 (List.mem_cons_of_mem _ h2))
    unfold listWalk
    rw [hlist k (List.mem_cons_self _ _)]
    simp only [Bool.false_eq_true, if_false]
    by_cases hm : matchRelease k = true
    · rw [if_pos hm]
      obtain ⟨hr, hsome⟩ := hread k (List.mem_cons_self _ _) hm
      unfold lineOf at hsome
      cases hl : s.lookup k with
      | none => simp [hl] at hsome
      | some file =>
        cases hu : x.unmarshalRelease file with
        | none => simp [hl, hu] at hsome
        | some release =>
          have : ReadFile f s k = .ok file := by
            unfold ReadFile
            rw [hr, hl]
            rfl
          rw [this]
          simp only [hu]
          exact ih2 _
    · rw [if_neg hm]
      exact ih2 _

theorem removeKeys_clean (f : Faults) (hrm : ∀ k, f.remove k = false) (keys : List Str) :
    ∀ (s s2 : Store), removeKeys f keys s = (none, s2) →
      ∀ o ∈ s2, o ∈ s ∧ o.1 ∉ keys := by
  induction keys with
  | nil =>
    intro s s2 h o ho
    simp only [removeKeys, Prod.mk.injEq, true_and] at h
    subst h
    exact ⟨ho, List.not_mem_nil _⟩
  | cons k rest ih =>
    intro s s2 h o ho
    unfold removeKeys at h
    split at h
    · simp at h
    · rw [hrm k] at h
      simp only [Bool.false_eq_true, if_false] at h
      obtain ⟨h1, h2⟩ := ih _ _ h o ho
      unfold Store.del at h1
      rw [List.mem_filter] at h1
      refine ⟨h1.1, ?_⟩
      intro hmem
      rcases List.mem_cons.mp hmem with hk | hk
      · simp [hk] at h1
      · exact h2 hk

theorem RemoveAll_clean (f : Faults) (hrm : ∀ k, f.remove k = false) (s s2 : Store) (p : Str)
    (h : RemoveAll f s p = (none, s2)) :
    ∀ o ∈ s2, o ∈ s ∧ HasPrefix o.1 p = false := by
  intro o ho
  obtain ⟨h1, h2⟩ := removeKeys_clean f hrm _ s s2 h o ho
  refine ⟨h1, ?_⟩
  cases hp : HasPrefix o.1 p with
  | false => rfl
  | true =>
    exact absurd ((mem_listObjects s p o.1).mpr ⟨⟨o.2, h1⟩, hp⟩) h2

theorem DeleteRepo_clean (f : Faults) (hrm : ∀ k, f.remove k = false) (s s2 : Store)
    (suite : Str) (h : DeleteRepo f s suite = (none, s2)) :
    ∀ o ∈ s2, o ∈ s ∧ HasPrefix o.1 (Join [PoolDir, suite]) = false ∧
      HasPrefix o.1 (Join [DistsDir, suite]) = false := by
  unfold DeleteRepo at h
  split at h
  · simp only [deleteDirs] at h
    split at h
    · simp at h
    · rename_i s1 h1
      split at h
      · simp at h
      · rename_i s3 h3
        simp only [Prod.mk.injEq, true_and] at h
        subst h
        intro o ho
        obtain ⟨ho1, hp1⟩ := RemoveAll_clean f hrm s1 s3 _ h3 o ho
        obtain ⟨ho0, hp0⟩ := RemoveAll_clean f hrm s s1 _ h1 o ho1
        exact ⟨ho0, hp0, hp1⟩
  · simp at h

theorem HasPrefix_append (a b : Str) : HasPrefix (a ++ b) a = true := by
  unfold HasPrefix
  rw [List.isPrefixOf_iff_prefix]
  exact List.prefix_append a b

theorem repoExists_lookup (f : Faults) (s : Store) (suite : Str)
    (h : repoExists f s suite = true) :
    ∃ d, s.lookup (Join [DistsDir, suite, ReleaseFile]) = some d := by
  unfold repoExists Exists at h
  simp only [Bool.and_eq_true, Bool.not_eq_true', Option.isSome_iff_exists] at h
  exact h.2

/-! ## Further facts on the index update and the listing -/

/-- Let `m1` be the index after the update with an entry `e` whose `Filename` has the
basename `b` of its input path.  Whenever the same update is applied to `m1` and completes,
every per-cpu list is what it was in `m1`; and it does complete when the lists before the
first update had at most one entry per `basename(Filename)`. -/
theorem indexUpdate_twice (archs : List Arch) (b : Str) (e : BinaryIndex) (m m1 : IndexMap)
    (hb : Base e.Filename = b) (h1 : indexUpdate archs b e m = some m1) :
    (∀ m2, indexUpdate archs b e m1 = some m2 → ∀ k, m2.get k = m1.get k) ∧
    (InvIndex m → ∃ m2, indexUpdate archs b e m1 = some m2) := by
  constructor
  · intro m2 h2
    unfold indexUpdate at h1 h2
    by_cases hall : e.Architecture.CPU = "all".toList
    · rw [if_pos hall] at h1 h2
      exact foldl_updateCpu_again b e hb m1 archs (foldl_updateCpu_last b e archs m m1 h1)
        m1 m2 (fun _ => rfl) h2
    · rw [if_neg hall] at h1 h2
      exact updateCpu_again b e hb m1 m1 m2 _ (fun _ => rfl) (updateCpu_get b e m m1 _ h1).1 h2
  · intro hinv
    obtain ⟨m1b, h, hinv1⟩ := indexUpdate_inv archs b e m hinv hb
    rw [h1] at h
    cases h
    obtain ⟨m2, h2, _⟩ := indexUpdate_inv archs b e m1 hinv1 hb
    exact ⟨m2, h2⟩

/-- `ListRepos` returns without error when the listing under `dists` and the
reads succeed and every blob whose key matches `dists/(\w+)/InRelease$` parses.  Whenever it
returns without error: for every suite name `s` of word characters whose blob
`dists/<s>/InRelease` exists, the line of the descriptor parsed from that blob is reported;
every line reported is that of a listed key matching the pattern; a repository that
`CreateRepo` has just created with such a name is reported; and after a `DeleteRepo` of
such a name in which no removal fails, `dists/<s>/InRelease` is not among the listed
keys. -/
theorem ListRepos_word_suites (x : Libs) (f : Faults) (st : Store) :
    ((∀ k ∈ listObjects st (Join [DistsDir]),
        f.list k = false ∧ (matchRelease k = true → f.read k = false ∧ (lineOf x st k).isSome)) →
      ∃ lines, ListRepos x f st = .ok lines) ∧
    (∀ lines, ListRepos x f st = .ok lines →
      (∀ s, IsWord s → repoExists f st s = true →
        ∃ l, lineOf x st ("dists/".toList ++ s ++ "/InRelease".toList) = some l ∧ l ∈ lines) ∧
      (∀ l ∈ lines, ∃ k, k ∈ listObjects st (Join [DistsDir]) ∧ matchRelease k = true ∧
        lineOf x st k = some l) ∧
      (∀ (st0 : Store) (origin suite label codename description : Str)
          (components architectures : List Str),
        IsWord suite → f.stat (Join [DistsDir, suite, ReleaseFile]) = false →
        CreateRepo x f st0 origin suite label codename description components architectures
          = (none, st) →
        ∃ l, lineOf x st ("dists/".toList ++ suite ++ "/InRelease".toList) = some l ∧
          l ∈ lines)) ∧
    (∀ (st0 : Store) (suite : Str), IsWord suite → (∀ k, f.remove k = false) →
      DeleteRepo f st0 suite = (none, st) →
      "dists/".toList ++ suite ++ "/InRelease".toList ∉ listObjects st (Join [DistsDir])) := by
  have hreported : ∀ lines, ListRepos x f st = .ok lines →
      ∀ s, IsWord s → repoExists f st s = true →
        ∃ l, lineOf x st ("dists/".toList ++ s ++ "/InRelease".toList) = some l ∧ l ∈ lines := by
    intro lines h s hs hex
    obtain ⟨L, hL, hmap⟩ := listWalk_ok x f st _ [] lines h
    obtain ⟨d, hd⟩ := repoExists_lookup f st s hex
    rw [releaseKey_eq s hs.plain] at hd
    have hkey : "dists/".toList ++ s ++ "/InRelease".toList ∈
        (listObjects st (Join [DistsDir])).filter matchRelease := by
      rw [List.mem_filter, mem_listObjects]
      refine ⟨⟨⟨d, Store.mem_of_lookup st _ d hd⟩, ?_⟩, matchRelease_word s hs⟩
      have : Join [DistsDir] = "dists".toList := by decide
      rw [this]
      have h2 : "dists/".toList ++ s ++ "/InRelease".toList
          = "dists".toList ++ ('/' :: (s ++ "/InRelease".toList)) := by simp
      rw [h2]
      exact HasPrefix_append _ _
    have hmem := List.mem_map_of_mem (lineOf x st) hkey
    rw [hmap, List.mem_map] at hmem
    obtain ⟨l, hl, hleq⟩ := hmem
    exact ⟨l, hleq.symm, by rw [hL]; simpa using hl⟩
  refine ⟨?_, ?_, ?_⟩
  · intro hall
    exact listWalk_total x f st _ (fun k hk => (hall k hk).1) (fun k hk => (hall k hk).2) []
  · intro lines h
    refine ⟨hreported lines h, ?_, ?_⟩
    · intro l hl
      obtain ⟨L, hL, hmap⟩ := listWalk_ok x f st _ [] lines h
      have hl2 : some l ∈ L.map some := by
        rw [hL] at hl
        exact List.mem_map_of_mem _ (by simpa using hl)
      rw [← hmap, List.mem_map] at hl2
      obtain ⟨k, hk, hkl⟩ := hl2
      rw [List.mem_filter] at hk
      exact ⟨k, hk.1, hk.2, hkl⟩
    · intro st0 origin suite label codename description components architectures hs hstat hc
      obtain ⟨_, _, _, _, _, _, hlook⟩ := CreateRepo_ok x f st0 st origin suite label codename
        description components architectures hc
      have hex : repoExists f st suite = true := by
        unfold repoExists Exists
        rw [hstat, hlook]
        rfl
      exact hreported lines h suite hs hex
  · intro st0 suite hs hrm hdel hmem
    obtain ⟨⟨d, hd⟩, _⟩ := (mem_listObjects st _ _).mp hmem
    have := (DeleteRepo_clean f hrm st0 st suite hdel _ hd).2.2
    rw [suiteDir_eq suite hs.plain] at this
    have h2 : HasPrefix ("dists/".toList ++ suite ++ "/InRelease".toList)
        ("dists/".toList ++ suite) = true := HasPrefix_append _ _
    simp only at this
    rw [h2] at this
    cases this

/-! ## The claims -/

/-- C1 (what the code records).  For every buffer a worker ingests successfully, the entry
put into the index has `Size` equal to the length of the buffer and the buffer is what is
written to the pool at the entry's `Filename`; its `MD5sum`, `SHA1` and `SHA256` are the
digests the hashers report without having been fed a byte, those of the empty input. -/
theorem pool_entry_digests (x : Libs) (f : Faults) (r : Release) (suite component pkg : Str)
    (m m1 : IndexMap) (s s1 : Store)
    (h : worker x f r suite component pkg m s = (none, m1, s1)) :
    ∃ data e, x.readLocal pkg = some data ∧
      indexUpdate r.Architectures (Base pkg) e m = some m1 ∧
      s1 = s.put (Join [e.Filename]) data ∧
      e.Size = data.length ∧
      e.MD5sum = x.md5 [] ∧ e.SHA1 = x.sha1 [] ∧ e.SHA256 = x.sha256 [] := by
  unfold worker at h
  split at h
  · cases h
  · rename_i data idx0 hp
    split at h
    · cases h
    · rename_i e hbe
      split at h
      · cases h
      · rename_i m2 hm2
        refine ⟨data, e, parseEntry_reads x r pkg data idx0 hp, ?_, ?_, ?_⟩
        · rw [hm2]
          simp only [Prod.mk.injEq] at h
          rw [h.2.1]
        · simp only [Prod.mk.injEq] at h
          obtain ⟨h1, _, h3⟩ := h
          by_cases hw : f.write (Join [e.Filename]) = true
          · simp [WriteFile, hw] at h1
          · simp only [WriteFile, hw] at h3
            exact h3.symm
        · unfold buildEntry at hbe
          simp only [Option.map_eq_some'] at hbe
          obtain ⟨fn, _, he⟩ := hbe
          subst he
          simp [hashFanOut]

theorem pool_entry_digests_witness :
    worker demoLibs noFaults stableRelease "stable".toList "main".toList
        "build/hello_1.0_amd64.deb".toList sampleIndex stableStore
      = (none,
         (worker demoLibs noFaults stableRelease "stable".toList "main".toList
           "build/hello_1.0_amd64.deb".toList sampleIndex stableStore).2.1,
         (worker demoLibs noFaults stableRelease "stable".toList "main".toList
           "build/hello_1.0_amd64.deb".toList sampleIndex stableStore).2.2) ∧
    ∃ data e, demoLibs.readLocal "build/hello_1.0_amd64.deb".toList = some data ∧
      indexUpdate stableRelease.Architectures (Base "build/hello_1.0_amd64.deb".toList) e
          sampleIndex
        = some (worker demoLibs noFaults stableRelease "stable".toList "main".toList
            "build/hello_1.0_amd64.deb".toList sampleIndex stableStore).2.1 ∧
      (worker demoLibs noFaults stableRelease "stable".toList "main".toList
          "build/hello_1.0_amd64.deb".toList sampleIndex stableStore).2.2
        = Store.put stableStore (Join [e.Filename]) data ∧
      e.Size = data.length ∧
      e.MD5sum = demoLibs.md5 [] ∧ e.SHA1 = demoLibs.sha1 [] ∧ e.SHA256 = demoLibs.sha256 [] :=
  ⟨by decide,
    pool_entry_digests demoLibs noFaults stableRelease "stable".toList "main".toList
      "build/hello_1.0_amd64.deb".toList sampleIndex _ stableStore _ (by decide)⟩

/-- C2, single-entry invariant.  When the local file system reads only paths that name a
file and every per-cpu list of the index has at most one entry per `basename(Filename)`,
then after the workers of any batch, in any order and whatever each of them returns, every
per-cpu list still has at most one entry per `basename(Filename)`; and the index update of
an entry whose `Filename` has the basename of its input path completes and keeps that
property. -/
theorem single_entry_invariant (x : Libs) (f : Faults) (r : Release) (suite component : Str)
    (pkgs : List Str) (first : Option Err) (m : IndexMap) (s : Store)
    (hfs : ReadsFiles x) (hinv : InvIndex m) :
    InvIndex (runWorkers x f r suite component pkgs first m s).2.1 ∧
    ∀ (b : Str) (e : BinaryIndex), Base e.Filename = b →
      ∃ m2, indexUpdate r.Architectures b e m = some m2 ∧ InvIndex m2 :=
  ⟨runWorkers_inv x f r suite component hfs pkgs first m s hinv,
   fun b e hb => indexUpdate_inv r.Architectures b e m hinv hb⟩

theorem single_entry_invariant_witness :
    ReadsFiles demoLibs ∧ InvIndex sampleIndex ∧
    (InvIndex (runWorkers demoLibs noFaults stableRelease "stable".toList "main".toList
        ["build/hello_1.0_amd64.deb".toList, "build/hello_1.0_amd64.deb".toList] none
        sampleIndex stableStore).2.1 ∧
      ∀ (b : Str) (e : BinaryIndex), Base e.Filename = b →
        ∃ m2, indexUpdate stableRelease.Architectures b e sampleIndex = some m2 ∧ InvIndex m2) :=
  ⟨demoLibs_readsFiles, invIndex_sampleIndex,
   single_entry_invariant demoLibs noFaults stableRelease "stable".toList "main".toList
     ["build/hello_1.0_amd64.deb".toList, "build/hello_1.0_amd64.deb".toList] none
     sampleIndex stableStore demoLibs_readsFiles invIndex_sampleIndex⟩

/-- C3, replace-and-append on lists that hold the basename twice.  With two entries of
basename `hello_1.0_amd64.deb` in front of two others, the update keeps the second of them
and appends the new entry, so the result has that basename twice; with the two at the end of
the list the update panics. -/
theorem replace_append_on_duplicates :
    updateList "hello_1.0_amd64.deb".toList
        (listed "hello" amd64 "pool/stable/main/h/hello/hello_1.0_amd64.deb")
        [listed "hello" amd64 "pool/stable/main/h/hello-a/hello_1.0_amd64.deb",
         listed "hello" amd64 "pool/stable/main/h/hello-b/hello_1.0_amd64.deb",
         listed "zsh" amd64 "pool/stable/main/z/zsh/zsh_5.9_amd64.deb",
         listed "vim" amd64 "pool/stable/main/v/vim/vim_9.0_amd64.deb"]
      = some
        [listed "hello" amd64 "pool/stable/main/h/hello-b/hello_1.0_amd64.deb",
         listed "zsh" amd64 "pool/stable/main/z/zsh/zsh_5.9_amd64.deb",
         listed "vim" amd64 "pool/stable/main/v/vim/vim_9.0_amd64.deb",
         listed "hello" amd64 "pool/stable/main/h/hello/hello_1.0_amd64.deb"] ∧
    updateList "hello_1.0_amd64.deb".toList
        (listed "hello" amd64 "pool/stable/main/h/hello/hello_1.0_amd64.deb")
        [listed "zsh" amd64 "pool/stable/main/z/zsh/zsh_5.9_amd64.deb",
         listed "hello" amd64 "pool/stable/main/h/hello-a/hello_1.0_amd64.deb",
         listed "hello" amd64 "pool/stable/main/h/hello-b/hello_1.0_amd64.deb"]
      = none := by
  constructor <;> decide

/-- C4, hash manifests when another suite's name extends this one's.  With suites `stable`
and `stable2` in the store, the manifests built for `stable` hold a row for the `Packages`
blob of `stable2`, under the path `dists/stable2/main/binary-amd64/Packages`; no blob
`dists/stable/dists/stable2/main/binary-amd64/Packages` exists. -/
theorem manifest_rows_of_longer_suite (x : Libs) :
    buildManifests x noFaults twoSuites "stable".toList
      = .ok
        { MD5 :=
            [fileHash "md5".toList (x.md5 [9]) [9] "main/binary-amd64/Packages".toList,
             fileHash "md5".toList (x.md5 [7, 7]) [7, 7]
               "dists/stable2/main/binary-amd64/Packages".toList],
          SHA1 :=
            [fileHash "sha1".toList (x.sha1 [9]) [9] "main/binary-amd64/Packages".toList,
             fileHash "sha1".toList (x.sha1 [7, 7]) [7, 7]
               "dists/stable2/main/binary-amd64/Packages".toList],
          SHA256 :=
            [fileHash "sha256".toList (x.sha256 [9]) [9] "main/binary-amd64/Packages".toList,
             fileHash "sha256".toList (x.sha256 [7, 7]) [7, 7]
               "dists/stable2/main/binary-amd64/Packages".toList] } ∧
    Exists noFaults twoSuites
      ("dists/stable/".toList ++ "dists/stable2/main/binary-amd64/Packages".toList) = false := by
  constructor
  · rfl
  · decide

/-- C5 (counterexample).  For a stanza without `Source` and `Package` the computation of the
pool path panics; and with the component written `main/` the path computed is not the
concatenation `pool/<suite>/<component>/<prefix>/<name>/<basename>`. -/
theorem pool_path_counterexample :
    poolFilename "stable".toList "main".toList "build/nameless.deb".toList namelessStanza = none ∧
    poolFilename "stable".toList "main/".toList "build/hello_1.0_amd64.deb".toList helloStanza
      = some "pool/stable/main/h/hello/hello_1.0_amd64.deb".toList ∧
    "pool/stable/main/h/hello/hello_1.0_amd64.deb".toList
      ≠ "pool/".toList ++ "stable".toList ++ ['/'] ++ "main/".toList ++ ['/'] ++ ['h'] ++ ['/']
          ++ "hello".toList ++ ['/'] ++ "hello_1.0_amd64.deb".toList := by
  refine ⟨by decide, by decide, by decide⟩

/-- C5 (amended).  For every parsed entry whose name (the `Source` field if present, else
the `Package` field) is not empty, the computation succeeds and `Filename` is
`path.Join("pool", suite, component, prefix, name, basename)` with `prefix` the first
character of the name and `basename` that of the input path; when suite, component, prefix,
name and basename are plain path elements this is
`pool/<suite>/<component>/<prefix>/<name>/<basename>`. -/
theorem pool_path (suite component pkg : Str) (idx : BinaryIndex)
    (hname : entryName idx ≠ []) :
    ∃ p, firstChar (entryName idx) = some p ∧
      poolFilename suite component pkg idx
        = some (Join [PoolDir, suite, component, p, entryName idx, Base pkg]) ∧
      (Plain suite → Plain component → Plain p → Plain (entryName idx) → Plain (Base pkg) →
        Join [PoolDir, suite, component, p, entryName idx, Base pkg]
          = "pool".toList ++ ['/'] ++ suite ++ ['/'] ++ component ++ ['/'] ++ p ++ ['/']
              ++ entryName idx ++ ['/'] ++ Base pkg) := by
  obtain ⟨c, rest, hc⟩ := List.exists_cons_of_ne_nil hname
  refine ⟨[c], by rw [hc]; rfl, ?_, ?_⟩
  · rw [poolFilename_eq, hc]; rfl
  · intro h1 h2 h3 h4 h5
    have hpool : Plain PoolDir := by decide
    rw [Join_cons PoolDir _ (by decide), Clean_joinSlash_plain _ (by simp)]
    · simp [joinSlash, PoolDir]
    · intro y hy
      simp only [List.mem_cons, List.mem_singleton, List.not_mem_nil, or_false] at hy
      rcases hy with rfl | rfl | rfl | rfl | rfl | rfl <;> assumption

theorem pool_path_witness :
    entryName helloStanza ≠ [] ∧
    poolFilename "stable".toList "main".toList "build/hello_1.0_amd64.deb".toList helloStanza
      = some "pool/stable/main/h/hello/hello_1.0_amd64.deb".toList := by
  refine ⟨by decide, ?_⟩
  obtain ⟨p, hp, hfn, hlit⟩ := pool_path "stable".toList "main".toList
    "build/hello_1.0_amd64.deb".toList helloStanza (by decide)
  have hp2 : p = ['h'] := by
    have : firstChar (entryName helloStanza) = some ['h'] := by decide
    rw [this] at hp
    exact (Option.some.inj hp).symm
  subst hp2
  rw [hfn, hlit (by decide) (by decide) (by decide) (by decide) (by decide)]
  decide

/-- C8, a removal that fails.  With one pool object whose removal the store refuses,
`DeleteRepo("stable")` returns no error and leaves that object under `pool/stable/`; the
descriptor is gone, so a second `DeleteRepo("stable")` reports that the repository is not
found and the object stays. -/
theorem delete_swallows_removal_failure :
    DeleteRepo stuckPool populatedStore "stable".toList
      = (none, [("pool/stable/main/h/hello/hello_1.0_amd64.deb".toList, helloDeb)]) ∧
    DeleteRepo stuckPool [("pool/stable/main/h/hello/hello_1.0_amd64.deb".toList, helloDeb)]
        "stable".toList
      = (some .repoNotFound, [("pool/stable/main/h/hello/hello_1.0_amd64.deb".toList, helloDeb)]) := by
  constructor <;> decide

/-- C9, an undeclared component.  `UploadPkgs` returns the unsupported-component error on
no input whatever.  `contrib` and `main/` are not among the components of the descriptor of
`stable`: uploading to `contrib` fails with the error of reading the missing `Packages`
blob; uploading to `main/` succeeds and writes the pool blob, the `Packages` blob and
`InRelease`. -/
theorem upload_to_undeclared_component :
    (∀ (x : Libs) (f : Faults) (s : Store) (suite component : Str) (pkgs : List Str),
      (UploadPkgs x f s suite component pkgs).1 ≠ some .unsupportedComponent) ∧
    "contrib".toList ∉ stableRelease.Components ∧ "main/".toList ∉ stableRelease.Components ∧
    UploadPkgs demoLibs noFaults stableStore "stable".toList "contrib".toList
        ["build/hello_1.0_amd64.deb".toList]
      = (some .transport, stableStore) ∧
    UploadPkgs demoLibs noFaults stableStore "stable".toList "main/".toList
        ["build/hello_1.0_amd64.deb".toList]
      = (none,
         [("dists/stable/main/binary-amd64/Packages".toList, [9]),
          ("dists/stable/InRelease".toList, [0, 1]),
          ("pool/stable/main/h/hello/hello_1.0_amd64.deb".toList, helloDeb)]) := by
  refine ⟨UploadPkgs_error, by decide, by decide, by decide, by decide⟩

/-- C10, unsupported architecture.  Let a package be readable, with a control stanza that
parses to an entry whose architecture is neither `all` nor declared by the release.  Its
worker returns the unsupported-architecture error and leaves the index and the store as they
were; and on an existing suite whose descriptor and per-cpu lists load, `UploadPkgs` with
that single input returns this error and leaves the store as it was. -/
theorem unsupported_architecture_rejected (x : Libs) (f : Faults) (s : Store)
    (suite component pkg : Str) (r : Release) (m : IndexMap) (data raw : Bytes)
    (idx : BinaryIndex)
    (hex : repoExists f s suite = true) (hr : getRelease x f s suite = .ok r)
    (hl : loadIndexes x f s suite component r.Architectures [] = .ok m)
    (hd : x.readLocal pkg = some data) (hc : readControlFile (x.arOpen data) = .ok raw)
    (hu : x.unmarshalBinaryIndex raw = some idx)
    (hall : idx.Architecture.CPU ≠ "all".toList) (hdecl : idx.Architecture ∉ r.Architectures) :
    (∀ (m0 : IndexMap) (s0 : Store),
      worker x f r suite component pkg m0 s0 = (some .unsupportedArchitecture, m0, s0)) ∧
    UploadPkgs x f s suite component [pkg] = (some .unsupportedArchitecture, s) := by
  have hp : parseEntry x r pkg = .error .unsupportedArchitecture := by
    unfold parseEntry
    simp only [hd, hc, hu]
    rw [if_pos ⟨hall, hdecl⟩]
  have hw : ∀ (m0 : IndexMap) (s0 : Store),
      worker x f r suite component pkg m0 s0 = (some .unsupportedArchitecture, m0, s0) := by
    intro m0 s0
    unfold worker
    rw [hp]
  refine ⟨hw, ?_⟩
  unfold UploadPkgs
  rw [if_pos hex]
  simp only [hr, hl]
  simp [runWorkers, hw]

theorem unsupported_architecture_rejected_witness :
    UploadPkgs demoLibs noFaults stableStore "stable".toList "main".toList
        ["build/exotic_1.0_mips64.deb".toList]
      = (some .unsupportedArchitecture, stableStore) :=
  (unsupported_architecture_rejected demoLibs noFaults stableStore "stable".toList
    "main".toList "build/exotic_1.0_mips64.deb".toList stableRelease
    [("amd64".toList, [])] exoticDeb exoticControl exoticStanza
    (by decide) rfl rfl (by decide) rfl (by decide) (by decide) (by decide)).2

/-- C11, a suite name with a hyphen.  `CreateRepo` with the suite name `stable-updates`
succeeds and the blob `dists/stable-updates/InRelease` exists, as `repoExists` finds; yet
`ListRepos` returns an empty list. -/
theorem list_repos_misses_suite :
    CreateRepo demoLibs noFaults [] "Acme".toList "stable-updates".toList "Acme".toList
        "bookworm".toList "desc".toList ["main".toList] ["amd64".toList]
      = (none, dashedStore) ∧
    repoExists noFaults dashedStore "stable-updates".toList = true ∧
    ListRepos demoLibs noFaults dashedStore = .ok [] := by
  refine ⟨by decide, by decide, rfl⟩

/-- C12, extractor panics.  On a `.deb` whose `control.tar.gz` member is not gzip data the
call panics in the constructor of the decompressor, and on one whose `control.tar.xz`
member holds a tar stream that breaks off it panics in the walk over the tar members:
neither bytes nor an error is returned. -/
theorem extractor_panics :
    readControlFile badGzipDeb = .error .panic ∧ readControlFile cutTarDeb = .error .panic := by
  constructor <;> rfl

/-- C14, deleting a suite whose name starts another's.  With the suites `stable` and
`stable2` in the store, `DeleteRepo("stable")` returns no error and leaves the store empty:
the descriptor, the `Packages` blob and the pool object of `stable2` are gone. -/
theorem delete_takes_longer_suite :
    repoExists noFaults twoSuitesPooled "stable2".toList = true ∧
    DeleteRepo noFaults twoSuitesPooled "stable".toList = (none, []) := by
  constructor <;> decide

end Faptly
